import Mathlib

/-!
# Boids simulation: the flocking update engine of `main.go`

A shallow embedding of the vector algebra, the boid kinematics, the three
steering rules and the boundary wrap of `src/main.go`, followed by theorems
about them.

Conventions of the embedding.

* `float64` is read as an ordered field `K` with a square root (`HasSqrt`).
  The definitions are generic in `K` and computable; the theorems are stated
  at `K = ℝ` with `Real.sqrt`.
* Methods with a pointer receiver that mutate it (`Add`, `Sub`, `Mul`, `Div`,
  `Limit`, `Update`, `Edges`, `ApplyForce`) return the new value instead.
* A `float64` division by zero yields `±Inf` or `NaN`, none of which is a real
  number: `Vector.Div` returns `none` there, and the rules propagate it. The
  tick loop does not stop on it: it stores the agent with NaN velocity and
  position (`Agent.nan`) and goes on with the next index.
* Where a claim turns on rounding, the same code is read over a model of
  IEEE-754 binary64 (`F64`, namespace `Float64`), on concrete inputs.
* A `[]Boid` slice is a `List`; `for _, other := range boids` is a left fold
  whose state is the pair of loop variables `(steering, total)`.
* `other != *b` is Go's struct comparison: equality of all six coordinates.
* `math.Cos`, `math.Sin` and `math.Pi` are the class `HasTrig`; the value drawn
  by `rand.Float64()` in `NewBoid` is an argument.
* The endless loop of `main` is `ticks n`, its first `n` rounds; rendering and
  event polling do not touch the flock and are left out.
-/

namespace Boids

/-- Square root of the scalar type (`math.Sqrt`). -/
class HasSqrt (K : Type) where
  /-- The square root function. -/
  sqrt : K → K

/-- Real numbers carry `Real.sqrt`. -/
noncomputable instance instHasSqrtReal : HasSqrt ℝ := ⟨Real.sqrt⟩

/-- Rational numbers carry `Rat.sqrt`, exact on squares of rationals; it lets
the definitions below be run on concrete inputs. -/
instance instHasSqrtRat : HasSqrt ℚ := ⟨Rat.sqrt⟩

/-- Cosine, sine and pi of the scalar type (`math.Cos`, `math.Sin`,
`math.Pi`). -/
class HasTrig (K : Type) where
  /-- The cosine function. -/
  cos : K → K
  /-- The sine function. -/
  sin : K → K
  /-- The constant pi. -/
  pi : K

/-- Go: `type Vector struct { x, y float64 }`. -/
structure Vector (K : Type) where
  x : K
  y : K
deriving DecidableEq, Repr

/-- Go: `type Boid struct { position, velocity, accel Vector }`. -/
structure Boid (K : Type) where
  position : Vector K
  velocity : Vector K
  accel : Vector K
deriving DecidableEq, Repr

/-- Go: `winWidth int = 1900`. -/
def winWidth : Nat := 1900

/-- Go: `winHeight int = 1200`. -/
def winHeight : Nat := 1200

section Defs

variable {K : Type} [LinearOrderedField K] [HasSqrt K]

/-- Go: `func (v *Vector) Add(v2 Vector)`. -/
def Vector.Add (v v2 : Vector K) : Vector K :=
  ⟨v.x + v2.x, v.y + v2.y⟩

/-- Go: `func (v *Vector) Sub(v2 Vector)`. -/
def Vector.Sub (v v2 : Vector K) : Vector K :=
  ⟨v.x - v2.x, v.y - v2.y⟩

/-- Go: `func (v *Vector) Mul(scalar float64)`. -/
def Vector.Mul (v : Vector K) (scalar : K) : Vector K :=
  ⟨v.x * scalar, v.y * scalar⟩

/-- Go: `func (v *Vector) Div(scalar float64)`. Undefined (`none`) when the
scalar is zero. -/
def Vector.Div (v : Vector K) (scalar : K) : Option (Vector K) :=
  if scalar = 0 then none else some ⟨v.x / scalar, v.y / scalar⟩

/-- Go: `func (v *Vector) Mag() float64`. -/
def Vector.Mag (v : Vector K) : K :=
  HasSqrt.sqrt (v.x * v.x + v.y * v.y)

/-- Go: `func (v *Vector) Limit(max float64)`. -/
def Vector.Limit (v : Vector K) (max : K) : Option (Vector K) :=
  let mag := v.Mag
  if mag > max then
    (v.Div mag).bind fun v1 => some (v1.Mul max)
  else
    some v

/-- Go: `func (v *Vector) Distance(v2 Vector) float64`. -/
def Vector.Distance (v v2 : Vector K) : K :=
  let dx := v2.x - v.x
  let dy := v2.y - v.y
  HasSqrt.sqrt (dx * dx + dy * dy)

/-- Go: `func (b *Boid) Update()`. -/
def Boid.Update (b : Boid K) : Option (Boid K) :=
  let velocity := b.velocity.Add b.accel
  (velocity.Limit 2).bind fun velocity =>
    let position := b.position.Add velocity
    some ⟨position, velocity, ⟨0, 0⟩⟩

/-- Go: `func (b *Boid) ApplyForce(force Vector)`. -/
def Boid.ApplyForce (b : Boid K) (force : Vector K) : Boid K :=
  { b with accel := b.accel.Add force }

/-- One iteration of the loop of `Align`, on the loop variables
`(steering, total)`. -/
def Boid.alignStep (b : Boid K) (st : Vector K × Nat) (other : Boid K) : Vector K × Nat :=
  let d := b.position.Distance other.position
  if other ≠ b ∧ d < 50 then (st.1.Add other.velocity, st.2 + 1) else st

/-- The loop of `Align`: `(steering, total)` after `range boids`. -/
def Boid.alignScan (b : Boid K) (boids : List (Boid K)) : Vector K × Nat :=
  boids.foldl b.alignStep (⟨0, 0⟩, 0)

/-- Go: `func (b *Boid) Align(boids []Boid) Vector`. -/
def Boid.Align (b : Boid K) (boids : List (Boid K)) : Option (Vector K) :=
  let st := b.alignScan boids
  if st.2 > 0 then
    (st.1.Div (st.2 : K)).bind fun s1 =>
      (s1.Limit 2).bind fun s2 =>
        (s2.Sub b.velocity).Limit 0.05
  else
    some st.1

/-- One iteration of the loop of `Cohesion`. -/
def Boid.cohesionStep (b : Boid K) (st : Vector K × Nat) (other : Boid K) : Vector K × Nat :=
  let d := b.position.Distance other.position
  if other ≠ b ∧ d < 30 then (st.1.Add other.position, st.2 + 1) else st

/-- The loop of `Cohesion`: `(steering, total)` after `range boids`. -/
def Boid.cohesionScan (b : Boid K) (boids : List (Boid K)) : Vector K × Nat :=
  boids.foldl b.cohesionStep (⟨0, 0⟩, 0)

/-- Go: `func (b *Boid) Cohesion(boids []Boid) Vector`. -/
def Boid.Cohesion (b : Boid K) (boids : List (Boid K)) : Option (Vector K) :=
  let st := b.cohesionScan boids
  if st.2 > 0 then
    (st.1.Div (st.2 : K)).bind fun s1 =>
      (s1.Sub b.position).Limit 0.05
  else
    some st.1

/-- One iteration of the loop of `Separation`; it divides by the distance, so
it can be undefined. -/
def Boid.separationStep (b : Boid K) (st : Vector K × Nat) (other : Boid K) :
    Option (Vector K × Nat) :=
  let d := b.position.Distance other.position
  if other ≠ b ∧ d < 20 then
    let diff : Vector K := ⟨b.position.x - other.position.x, b.position.y - other.position.y⟩
    (diff.Div d).bind fun diff1 => some (st.1.Add diff1, st.2 + 1)
  else
    some st

/-- The loop of `Separation`: `(steering, total)` after `range boids`. -/
def Boid.separationScan (b : Boid K) : List (Boid K) → Vector K × Nat → Option (Vector K × Nat)
  | [], st => some st
  | other :: rest, st => (b.separationStep st other).bind fun st1 => b.separationScan rest st1

/-- Go: `func (b *Boid) Separation(boids []Boid) Vector`. -/
def Boid.Separation (b : Boid K) (boids : List (Boid K)) : Option (Vector K) :=
  (b.separationScan boids (⟨0, 0⟩, 0)).bind fun st =>
    if st.2 > 0 then
      (st.1.Div (st.2 : K)).bind fun s1 => s1.Limit 0.05
    else
      st.1.Limit 0.05

/-- Go: `func (b *Boid) Edges()`. -/
def Boid.Edges (b : Boid K) : Boid K :=
  let px : K :=
    if b.position.x > (winWidth : K) then 0
    else if b.position.x < 0 then (winWidth : K)
    else b.position.x
  let py : K :=
    if b.position.y > (winHeight : K) then 0
    else if b.position.y < 0 then (winHeight : K)
    else b.position.y
  { b with position := ⟨px, py⟩ }

/-- An agent as the tick loop stores it in the flock. Either all its
coordinates are real numbers, or it is an agent whose `Separation` divided
`0 / 0`: float64 then leaves NaN in both coordinates of its velocity and of
its position, and only its acceleration is a real vector. The loop does not
stop there: it stores that agent and goes on. -/
inductive Agent (K : Type) where
  | real (b : Boid K)
  | nan (accel : Vector K)
deriving DecidableEq, Repr

/-- The acceleration of a stored agent. -/
def Agent.accel : Agent K → Vector K
  | .real b => b.accel
  | .nan accel => accel

/-- The velocity of a stored agent, `none` when it is NaN. -/
def Agent.velocity? : Agent K → Option (Vector K)
  | .real b => some b.velocity
  | .nan _ => none

/-- The position of a stored agent, `none` when it is NaN. -/
def Agent.position? : Agent K → Option (Vector K)
  | .real b => some b.position
  | .nan _ => none

/-- The entries of the live flock that a scan can count. An entry whose
position is NaN is at distance NaN from every agent, fails
`d < perceptionRadius` and is passed over by the three loops. -/
def realEntries : List (Agent K) → List (Boid K)
  | [] => []
  | .real b :: rest => b :: realEntries rest
  | .nan _ :: rest => realEntries rest

/-- Go: `func (b *Boid) Edges()` on a stored agent. On a NaN position all four
comparisons are false and nothing is assigned. -/
def Agent.Edges : Agent K → Agent K
  | .real b => .real b.Edges
  | .nan accel => .nan accel

/-- The rest of the body of the tick loop on the wrapped agent: the three
rules against the live flock, the three `ApplyForce`, `Update`. A force that
is NaN makes the acceleration, then the velocity, then the position NaN
(`Limit` compares NaN and rescales nothing), and `Update` ends with
`b.accel = Vector{0, 0}` all the same. For an agent at a NaN position every
distance is NaN, the three rules return `(0, 0)`, and `Update` again leaves
NaN velocity and position and the acceleration `(0, 0)`. -/
def Agent.steerAndUpdate (a : Agent K) (live : List (Agent K)) : Agent K :=
  match a with
  | .nan _ => .nan ⟨0, 0⟩
  | .real b1 =>
    match b1.Align (realEntries live), b1.Cohesion (realEntries live),
        b1.Separation (realEntries live) with
    | some align, some cohesion, some separation =>
      match (((b1.ApplyForce align).ApplyForce cohesion).ApplyForce separation).Update with
      | some b3 => .real b3
      | none => .nan ⟨0, 0⟩
    | _, _, _ => .nan ⟨0, 0⟩

/-- The body of the tick loop of `main` for index `i`: wrap, the three
rules against the live flock, the three forces, integration; all on
`boids[i]` in place. -/
def tickBody (boids : List (Agent K)) (i : Nat) : List (Agent K) :=
  match boids[i]? with
  | none => boids
  | some a0 =>
    let boids1 := boids.set i a0.Edges
    boids1.set i (a0.Edges.steerAndUpdate boids1)

/-- The loop `for i := range boids` over the indices `is`. -/
def tickLoop : List Nat → List (Agent K) → List (Agent K)
  | [], boids => boids
  | i :: rest, boids => tickLoop rest (tickBody boids i)

/-- One tick of `main`: `for i := range boids { ... }`. -/
def tick (boids : List (Agent K)) : List (Agent K) :=
  tickLoop (List.range boids.length) boids

/-- The first `n` rounds of the endless loop `for { ... }` of `main`, as far as
the flock goes: `n` ticks in a row. -/
def ticks : Nat → List (Agent K) → List (Agent K)
  | 0, boids => boids
  | n + 1, boids => tick (ticks n boids)

/-- Go: `func NewBoid(x, y float64) Boid`. The value drawn by `rand.Float64()`
is the argument `r`. -/
def NewBoid [HasTrig K] (r x y : K) : Boid K :=
  let angle := r * 2 * HasTrig.pi
  ⟨⟨x, y⟩, ⟨HasTrig.cos angle, HasTrig.sin angle⟩, ⟨0, 0⟩⟩

/-- The entries the three loops take for neighbours within radius `r`: the
test `other != *b && d < perceptionRadius` of the code, as a filter. -/
def neighboursByValue (b : Boid K) (r : K) (boids : List (Boid K)) : List (Boid K) :=
  boids.filter fun other => other ≠ b ∧ b.position.Distance other.position < r

/-! ### The rules as the specification words them

Used only to state the refinement theorems about the three rules and the
tick. -/

/-- Spec §4.3 and §9: the neighbours of agent `b = boids[i]` within radius `r`,
with the agent itself left out by index. -/
def neighboursByIndex (b : Boid K) (i : Nat) (r : K) (boids : List (Boid K)) : List (Boid K) :=
  (boids.enum.filter fun p => p.1 ≠ i ∧ b.position.Distance p.2.position < r).map Prod.snd

/-- Spec §4.3: the average of a list of vectors. -/
def meanVector (vs : List (Vector K)) : Vector K :=
  ⟨(vs.map Vector.x).sum / (vs.length : K), (vs.map Vector.y).sum / (vs.length : K)⟩

/-- Spec §4.3, Alignment: the neighbours' mean velocity, limited to `maxSpeed`,
minus the own velocity, limited to `maxForce`. -/
def alignSpec (b : Boid K) (i : Nat) (boids : List (Boid K)) : Option (Vector K) :=
  ((meanVector ((neighboursByIndex b i 50 boids).map Boid.velocity)).Limit 2).bind fun m =>
    (m.Sub b.velocity).Limit 0.05

/-- Spec §4.3, Cohesion: the neighbours' mean position minus the own position,
limited to `maxForce`. -/
def cohesionSpec (b : Boid K) (i : Nat) (boids : List (Boid K)) : Option (Vector K) :=
  ((meanVector ((neighboursByIndex b i 30 boids).map Boid.position)).Sub b.position).Limit 0.05

/-- Spec §4.3, Separation: the mean, over the other entries at a distance `d`
with `0 < d < 20`, of `(own position - their position) / d`; the zero vector
when there is no such entry; limited to `maxForce`. -/
def separationSpec (b : Boid K) (i : Nat) (boids : List (Boid K)) : Option (Vector K) :=
  let ns := (boids.enum.filter fun p => p.1 ≠ i ∧ 0 < b.position.Distance p.2.position ∧
    b.position.Distance p.2.position < 20).map Prod.snd
  let S : Vector K :=
    if ns.isEmpty then ⟨0, 0⟩
    else meanVector (ns.map fun o =>
      ⟨(b.position.x - o.position.x) / b.position.Distance o.position,
        (b.position.y - o.position.y) / b.position.Distance o.position⟩)
  S.Limit 0.05

/-- Spec §5: the flock that agent `i` reads during a tick: the entries before
`i` in their post-tick state, the wrapped agent at `i`, the entries after `i`
in their pre-tick state. -/
def liveFlock (old new : List (Agent K)) (i : Nat) (wrapped : Agent K) : List (Agent K) :=
  new.take i ++ wrapped :: old.drop (i + 1)

/-- Spec §4.5: the new state of an agent: `Update` applied to the wrapped
agent after adding the three forces, computed against `live`, to its
acceleration. An agent that is NaN, or a force that is NaN, gives the NaN
agent with the acceleration `(0, 0)`. -/
def agentTick (a0 : Agent K) (live : List (Agent K)) : Agent K :=
  match a0.Edges with
  | .nan _ => .nan ⟨0, 0⟩
  | .real b1 =>
    match b1.Align (realEntries live), b1.Cohesion (realEntries live),
        b1.Separation (realEntries live) with
    | some align, some cohesion, some separation =>
      match Boid.Update ⟨b1.position, b1.velocity,
          ((b1.accel.Add align).Add cohesion).Add separation⟩ with
      | some b3 => .real b3
      | none => .nan ⟨0, 0⟩
    | _, _, _ => .nan ⟨0, 0⟩

end Defs

/-! ### The same code over float64

The definitions above read `float64` as exact numbers. Where a claim turns on
rounding, the code is read once more over IEEE-754 binary64: every `+`, `-`,
`*`, `/` and `math.Sqrt` is rounded to the nearest value with a 53-bit
significand, ties to even, each operation on its own (the Go compiler fuses no
multiplication with an addition for amd64 by default). Infinities, subnormal
numbers and the limits of the exponent are left out: the inputs used below stay
far from them. The sign of a zero is dropped: it changes no comparison and no
sum, product or quotient by a value other than zero. A division by zero is
`none`, and the tick loop stores the NaN agent, as above. -/

/-- A finite float64 value `m * 2 ^ e`. Zero is `⟨0, 0⟩`; every other value is
stored with `2 ^ 52 ≤ |m| < 2 ^ 53`, so equal values are equal pairs. -/
structure F64 where
  m : Int
  e : Int
deriving DecidableEq, Repr

namespace F64

/-- The number of bits of `n`, halving at most `fuel` times. -/
def bitsAux : Nat → Nat → Nat
  | 0, _ => 0
  | fuel + 1, n => if n = 0 then 0 else bitsAux fuel (n / 2) + 1

/-- The number of bits of `n`: `0` for `0`, and `k` when `2 ^ (k - 1) ≤ n < 2 ^ k`. -/
def bits (n : Nat) : Nat := bitsAux n n

/-- Round `(n / d) * 2 ^ e`, for `n, d > 0`, to a 53-bit significand, ties to
even: the significand and the exponent of the result. -/
def roundPos (n d : Nat) (e : Int) : Nat × Int :=
  let k : Int := (bits n : Int) - (bits d : Int) - 52
  let q0 := (n * 2 ^ (-k).toNat) / (d * 2 ^ k.toNat)
  let k1 : Int := if q0 < 2 ^ 52 then k - 1 else if 2 ^ 53 ≤ q0 then k + 1 else k
  let N := n * 2 ^ (-k1).toNat
  let D := d * 2 ^ k1.toNat
  let q := N / D
  let r := N % D
  let q1 := if D < 2 * r then q + 1 else if 2 * r = D then q + q % 2 else q
  if q1 = 2 ^ 53 then (2 ^ 52, e + k1 + 1) else (q1, e + k1)

/-- Round `(n / d) * 2 ^ e`, for `d > 0`, to the nearest float64. -/
def round (n : Int) (d : Nat) (e : Int) : F64 :=
  if n = 0 then ⟨0, 0⟩
  else
    let r := roundPos n.natAbs d e
    if n < 0 then ⟨-(r.1 : Int), r.2⟩ else ⟨(r.1 : Int), r.2⟩

/-- Float64 `+`. -/
def add (a b : F64) : F64 :=
  let e := min a.e b.e
  round (a.m * 2 ^ (a.e - e).toNat + b.m * 2 ^ (b.e - e).toNat) 1 e

/-- Float64 `-`. -/
def sub (a b : F64) : F64 :=
  let e := min a.e b.e
  round (a.m * 2 ^ (a.e - e).toNat - b.m * 2 ^ (b.e - e).toNat) 1 e

/-- Float64 `*`. -/
def mul (a b : F64) : F64 :=
  round (a.m * b.m) 1 (a.e + b.e)

/-- Float64 `/` by a value other than zero. -/
def div (a b : F64) : F64 :=
  round (if b.m < 0 then -a.m else a.m) b.m.natAbs (a.e - b.e)

/-- The integer square root, bit by bit from bit `fuel - 1` down. -/
def isqrtAux (n : Nat) : Nat → Nat → Nat
  | 0, acc => acc
  | fuel + 1, acc =>
    let c := acc + 2 ^ fuel
    if c * c ≤ n then isqrtAux n fuel c else isqrtAux n fuel acc

/-- The integer square root: the largest `s` with `s * s ≤ n`. -/
def isqrt (n : Nat) : Nat := isqrtAux n (bits n / 2 + 1) 0

/-- Float64 `math.Sqrt` of a value that is not negative. The value is written
`M * 2 ^ E` with `E` even and `M ≥ 2 ^ 108`; its root lies at `s` or strictly
between `s` and `s + 1` for `s = isqrt M`, where it rounds like `s + 1/2`
because `s` has more than 54 bits. -/
def sqrt (a : F64) : F64 :=
  if a.m ≤ 0 then ⟨0, 0⟩
  else
    let p : Nat := (a.e % 2).toNat
    let M := a.m.natAbs * 2 ^ p * 2 ^ 56
    let E := a.e - p - 56
    let s := isqrt M
    if s * s = M then round s 1 (E / 2) else round (2 * s + 1) 2 (E / 2)

/-- Float64 `<`: the comparison of the two values. -/
def lt (a b : F64) : Bool :=
  let e := min a.e b.e
  a.m * 2 ^ (a.e - e).toNat < b.m * 2 ^ (b.e - e).toNat

/-- The exact value of a float64, as a rational number. -/
def toRat (a : F64) : ℚ := a.m * 2 ^ a.e

instance : Add F64 := ⟨add⟩
instance : Sub F64 := ⟨sub⟩
instance : Mul F64 := ⟨mul⟩
instance : Div F64 := ⟨div⟩
instance : LT F64 := ⟨fun a b => lt a b = true⟩
instance (a b : F64) : Decidable (a < b) := inferInstanceAs (Decidable (lt a b = true))
instance (n : Nat) : OfNat F64 n := ⟨round n 1 0⟩
instance : NatCast F64 := ⟨fun n => round n 1 0⟩
instance : OfScientific F64 :=
  ⟨fun mantissa exponentSign exponent =>
    if exponentSign then round mantissa (10 ^ exponent) 0
    else round (mantissa * 10 ^ exponent) 1 0⟩

end F64

namespace Float64

/-- Go: `func (v *Vector) Add(v2 Vector)`, over float64. -/
def Add (v v2 : Vector F64) : Vector F64 :=
  ⟨v.x + v2.x, v.y + v2.y⟩

/-- Go: `func (v *Vector) Sub(v2 Vector)`, over float64. -/
def Sub (v v2 : Vector F64) : Vector F64 :=
  ⟨v.x - v2.x, v.y - v2.y⟩

/-- Go: `func (v *Vector) Mul(scalar float64)`, over float64. -/
def Mul (v : Vector F64) (scalar : F64) : Vector F64 :=
  ⟨v.x * scalar, v.y * scalar⟩

/-- Go: `func (v *Vector) Div(scalar float64)`, over float64. -/
def Div (v : Vector F64) (scalar : F64) : Option (Vector F64) :=
  if scalar = 0 then none else some ⟨v.x / scalar, v.y / scalar⟩

/-- Go: `func (v *Vector) Mag() float64`, over float64. -/
def Mag (v : Vector F64) : F64 :=
  F64.sqrt (v.x * v.x + v.y * v.y)

/-- Go: `func (v *Vector) Limit(max float64)`, over float64. -/
def Limit (v : Vector F64) (max : F64) : Option (Vector F64) :=
  let mag := Mag v
  if mag > max then
    (Div v mag).bind fun v1 => some (Mul v1 max)
  else
    some v

/-- Go: `func (v *Vector) Distance(v2 Vector) float64`, over float64. -/
def Distance (v v2 : Vector F64) : F64 :=
  let dx := v2.x - v.x
  let dy := v2.y - v.y
  F64.sqrt (dx * dx + dy * dy)

/-- Go: `func (b *Boid) Update()`, over float64. -/
def Update (b : Boid F64) : Option (Boid F64) :=
  let velocity := Add b.velocity b.accel
  (Limit velocity 2).bind fun velocity =>
    let position := Add b.position velocity
    some ⟨position, velocity, ⟨0, 0⟩⟩

/-- Go: `func (b *Boid) ApplyForce(force Vector)`, over float64. -/
def ApplyForce (b : Boid F64) (force : Vector F64) : Boid F64 :=
  { b with accel := Add b.accel force }

/-- One iteration of the loop of `Align`, over float64. -/
def alignStep (b : Boid F64) (st : Vector F64 × Nat) (other : Boid F64) : Vector F64 × Nat :=
  let d := Distance b.position other.position
  if other ≠ b ∧ d < 50 then (Add st.1 other.velocity, st.2 + 1) else st

/-- Go: `func (b *Boid) Align(boids []Boid) Vector`, over float64. -/
def Align (b : Boid F64) (boids : List (Boid F64)) : Option (Vector F64) :=
  let st := boids.foldl (alignStep b) (⟨0, 0⟩, 0)
  if st.2 > 0 then
    (Div st.1 (st.2 : F64)).bind fun s1 =>
      (Limit s1 2).bind fun s2 =>
        Limit (Sub s2 b.velocity) 0.05
  else
    some st.1

/-- One iteration of the loop of `Cohesion`, over float64. -/
def cohesionStep (b : Boid F64) (st : Vector F64 × Nat) (other : Boid F64) :
    Vector F64 × Nat :=
  let d := Distance b.position other.position
  if other ≠ b ∧ d < 30 then (Add st.1 other.position, st.2 + 1) else st

/-- Go: `func (b *Boid) Cohesion(boids []Boid) Vector`, over float64. -/
def Cohesion (b : Boid F64) (boids : List (Boid F64)) : Option (Vector F64) :=
  let st := boids.foldl (cohesionStep b) (⟨0, 0⟩, 0)
  if st.2 > 0 then
    (Div st.1 (st.2 : F64)).bind fun s1 =>
      Limit (Sub s1 b.position) 0.05
  else
    some st.1

/-- One iteration of the loop of `Separation`, over float64. -/
def separationStep (b : Boid F64) (st : Vector F64 × Nat) (other : Boid F64) :
    Option (Vector F64 × Nat) :=
  let d := Distance b.position other.position
  if other ≠ b ∧ d < 20 then
    let diff : Vector F64 := ⟨b.position.x - other.position.x, b.position.y - other.position.y⟩
    (Div diff d).bind fun diff1 => some (Add st.1 diff1, st.2 + 1)
  else
    some st

/-- The loop of `Separation`, over float64. -/
def separationScan (b : Boid F64) :
    List (Boid F64) → Vector F64 × Nat → Option (Vector F64 × Nat)
  | [], st => some st
  | other :: rest, st => (separationStep b st other).bind fun st1 => separationScan b rest st1

/-- Go: `func (b *Boid) Separation(boids []Boid) Vector`, over float64. -/
def Separation (b : Boid F64) (boids : List (Boid F64)) : Option (Vector F64) :=
  (separationScan b boids (⟨0, 0⟩, 0)).bind fun st =>
    if st.2 > 0 then
      (Div st.1 (st.2 : F64)).bind fun s1 => Limit s1 0.05
    else
      Limit st.1 0.05

/-- Go: `func (b *Boid) Edges()`, over float64. -/
def Edges (b : Boid F64) : Boid F64 :=
  let px : F64 :=
    if b.position.x > (winWidth : F64) then 0
    else if b.position.x < 0 then (winWidth : F64)
    else b.position.x
  let py : F64 :=
    if b.position.y > (winHeight : F64) then 0
    else if b.position.y < 0 then (winHeight : F64)
    else b.position.y
  { b with position := ⟨px, py⟩ }

/-- The entries of the live flock that a scan can count, as `realEntries`. -/
def realEntries : List (Agent F64) → List (Boid F64)
  | [] => []
  | .real b :: rest => b :: realEntries rest
  | .nan _ :: rest => realEntries rest

/-- The body of the tick loop after the wrap, as `Agent.steerAndUpdate`, over
float64. -/
def steerAndUpdate (a : Agent F64) (live : List (Agent F64)) : Agent F64 :=
  match a with
  | .nan _ => .nan ⟨0, 0⟩
  | .real b1 =>
    match Align b1 (realEntries live), Cohesion b1 (realEntries live),
        Separation b1 (realEntries live) with
    | some align, some cohesion, some separation =>
      match Update (ApplyForce (ApplyForce (ApplyForce b1 align) cohesion) separation) with
      | some b3 => .real b3
      | none => .nan ⟨0, 0⟩
    | _, _, _ => .nan ⟨0, 0⟩

/-- Go: `func (b *Boid) Edges()` on a stored agent, as `Agent.Edges`, over
float64. -/
def AgentEdges : Agent F64 → Agent F64
  | .real b => .real (Edges b)
  | .nan accel => .nan accel

/-- The body of the tick loop of `main` for index `i`, over float64. -/
def tickBody (boids : List (Agent F64)) (i : Nat) : List (Agent F64) :=
  match boids[i]? with
  | none => boids
  | some a0 =>
    let boids1 := boids.set i (AgentEdges a0)
    boids1.set i (steerAndUpdate (AgentEdges a0) boids1)

/-- The loop `for i := range boids` over the indices `is`, over float64. -/
def tickLoop : List Nat → List (Agent F64) → List (Agent F64)
  | [], boids => boids
  | i :: rest, boids => tickLoop rest (tickBody boids i)

/-- One tick of `main`, over float64. -/
def tick (boids : List (Agent F64)) : List (Agent F64) :=
  tickLoop (List.range boids.length) boids

/-- The first `n` rounds of the loop of `main`, over float64. -/
def ticks : Nat → List (Agent F64) → List (Agent F64)
  | 0, boids => boids
  | n + 1, boids => tick (ticks n boids)

end Float64

/-- The agent at `(100, 100)` with velocity `(1, 0)`, over float64. -/
def agentA64 : Boid F64 := ⟨⟨100, 100⟩, ⟨1, 0⟩, ⟨0, 0⟩⟩

/-- An agent at `(88, 88)`, within the cohesion radius of `agentA64`, over
float64. -/
def agentQ64 : Boid F64 := ⟨⟨88, 88⟩, ⟨0, 1⟩, ⟨0, 0⟩⟩

/-- An agent at `(100, 100)` with velocity `(0.1, 0)`, over float64. -/
def slowAgent64 : Boid F64 := ⟨⟨100, 100⟩, ⟨0.1, 0⟩, ⟨0, 0⟩⟩

/-- An agent at `(100, 100)` with velocity `(19, 29)`, faster than `maxSpeed`,
over float64. -/
def fastAgent64 : Boid F64 := ⟨⟨100, 100⟩, ⟨19, 29⟩, ⟨0, 0⟩⟩


/-! ### Concrete flocks used below -/

/-- Agent A of the two-agent scenario of spec §8. -/
def agentA : Boid ℝ := ⟨⟨100, 100⟩, ⟨1, 0⟩, ⟨0, 0⟩⟩

/-- Agent B of the two-agent scenario of spec §8. -/
def agentB : Boid ℝ := ⟨⟨110, 100⟩, ⟨-1, 0⟩, ⟨0, 0⟩⟩

/-- A distinct agent at exactly the position of `agentA`, with another heading. -/
def agentOnA : Boid ℝ := ⟨⟨100, 100⟩, ⟨0, 1⟩, ⟨0, 0⟩⟩

/-- An agent far from `agentA`, outside every perception radius. -/
def agentFar : Boid ℝ := ⟨⟨400, 500⟩, ⟨0, 1⟩, ⟨0, 0⟩⟩

/-- Agent A of the scenario after one tick of the flock `[agentA, agentB]`. -/
def agentA1 : Boid ℝ := ⟨⟨100.95, 100⟩, ⟨0.95, 0⟩, ⟨0, 0⟩⟩

/-- Agent B of the scenario after one tick of the flock `[agentA, agentB]`. -/
def agentB1 : Boid ℝ := ⟨⟨109.05, 100⟩, ⟨-0.95, 0⟩, ⟨0, 0⟩⟩

/-! ## Theorems -/

@[simp] theorem sqrt_real (x : ℝ) : (HasSqrt.sqrt x : ℝ) = Real.sqrt x := rfl

/-! ### Magnitude and `Limit` over the reals -/

theorem Vector.Mag_nonneg (v : Vector ℝ) : 0 ≤ v.Mag :=
  Real.sqrt_nonneg _

theorem Vector.Mag_mul_self (v : Vector ℝ) : v.Mag * v.Mag = v.x * v.x + v.y * v.y :=
  Real.mul_self_sqrt (add_nonneg (mul_self_nonneg _) (mul_self_nonneg _))

theorem Vector.Mag_zero : (Vector.mk 0 0 : Vector ℝ).Mag = 0 := by
  simp [Vector.Mag]

/-- Below the bound `Limit` is the identity. -/
theorem Vector.Limit_of_le (v : Vector ℝ) (max : ℝ) (h : v.Mag ≤ max) :
    v.Limit max = some v := by
  simp [Vector.Limit, not_lt.mpr h]

/-- Above a non-negative bound `Limit` divides by the magnitude, which is not
zero, and multiplies by the bound. -/
theorem Vector.Limit_of_gt (v : Vector ℝ) (max : ℝ) (h0 : 0 ≤ max) (h : max < v.Mag) :
    v.Limit max = some ⟨v.x / v.Mag * max, v.y / v.Mag * max⟩ := by
  have hne : v.Mag ≠ 0 := (lt_of_le_of_lt h0 h).ne.symm
  simp [Vector.Limit, Vector.Div, Vector.Mul, h, hne]

/-- The rescaled vector has magnitude exactly the bound. -/
theorem Vector.Mag_rescaled (v : Vector ℝ) (max : ℝ) (h0 : 0 ≤ max) (hne : v.Mag ≠ 0) :
    (Vector.mk (v.x / v.Mag * max) (v.y / v.Mag * max)).Mag = max := by
  have hsq := v.Mag_mul_self
  have key : v.x / v.Mag * max * (v.x / v.Mag * max) + v.y / v.Mag * max * (v.y / v.Mag * max)
      = max * max := by
    field_simp
    nlinarith [hsq]
  show Real.sqrt _ = max
  rw [key]
  exact Real.sqrt_mul_self h0

/-- For a non-negative bound `Limit` is defined and its result is within the
bound. -/
theorem Vector.Limit_bound (v : Vector ℝ) (max : ℝ) (h0 : 0 ≤ max) :
    ∃ w, v.Limit max = some w ∧ w.Mag ≤ max := by
  rcases le_or_lt v.Mag max with h | h
  · exact ⟨v, v.Limit_of_le max h, h⟩
  · have hne : v.Mag ≠ 0 := (lt_of_le_of_lt h0 h).ne.symm
    exact ⟨_, v.Limit_of_gt max h0 h, (v.Mag_rescaled max h0 hne).le⟩

/-- Whatever `Limit` returns for a non-negative bound is within the bound. -/
theorem Vector.Mag_le_of_Limit (v w : Vector ℝ) (max : ℝ) (h0 : 0 ≤ max)
    (h : v.Limit max = some w) : w.Mag ≤ max := by
  obtain ⟨w1, h1, h2⟩ := v.Limit_bound max h0
  rw [h1] at h
  cases h
  exact h2


/-! ### C1: self-exclusion -/

/-- C1, the code at the flock `[agentA, agentA]`: read by index, the entry at
index 1 is a neighbour of the agent at index 0 for each of the three radii
(it is at distance 0), yet the loops of `Align`, `Cohesion` and `Separation`
called on the agent at index 0 count no entry at all, because `other != *b`
compares values and the entry at index 1 has the same six coordinates. -/
theorem self_exclusion_by_value_skips_twin :
    neighboursByIndex agentA 0 50 [agentA, agentA] = [agentA] ∧
    neighboursByIndex agentA 0 30 [agentA, agentA] = [agentA] ∧
    neighboursByIndex agentA 0 20 [agentA, agentA] = [agentA] ∧
    agentA.alignScan [agentA, agentA] = (⟨0, 0⟩, 0) ∧
    agentA.cohesionScan [agentA, agentA] = (⟨0, 0⟩, 0) ∧
    agentA.separationScan [agentA, agentA] (⟨0, 0⟩, 0) = some (⟨0, 0⟩, 0) := by
  refine ⟨?_, ?_, ?_, ?_, ?_, ?_⟩
  · simp [neighboursByIndex, List.enum, List.enumFrom, List.filter, Vector.Distance]
  · simp [neighboursByIndex, List.enum, List.enumFrom, List.filter, Vector.Distance]
  · simp [neighboursByIndex, List.enum, List.enumFrom, List.filter, Vector.Distance]
  · simp [Boid.alignScan, Boid.alignStep]
  · simp [Boid.cohesionScan, Boid.cohesionStep]
  · simp [Boid.separationScan, Boid.separationStep]

/-! ### C2: the division by the distance in `Separation` -/

/-- C2, the code at `agentA` and the flock entry `agentOnA`: the entry is a
distinct agent (another velocity) at distance 0, within the radius 20; the
loop body of `Separation` does not skip it and divides the difference vector
by the zero distance, so the iteration, the loop and `Separation` are
undefined there. -/
theorem separation_divides_by_zero_distance :
    agentOnA ≠ agentA ∧
    agentA.position.Distance agentOnA.position = 0 ∧
    (Vector.mk (agentA.position.x - agentOnA.position.x)
      (agentA.position.y - agentOnA.position.y)).Div
        (agentA.position.Distance agentOnA.position) = none ∧
    agentA.separationStep (⟨0, 0⟩, 0) agentOnA = none ∧
    agentA.separationScan [agentA, agentOnA] (⟨0, 0⟩, 0) = none := by
  have hne : agentOnA ≠ agentA := by simp [agentOnA, agentA]
  have hd : agentA.position.Distance agentOnA.position = 0 := by
    simp [agentOnA, agentA, Vector.Distance]
  refine ⟨hne, hd, ?_, ?_, ?_⟩
  · simp [hd, Vector.Div]
  · simp [Boid.separationStep, hne, hd, Vector.Div]
  · simp [Boid.separationScan, Boid.separationStep, hne, hd, Vector.Div]

/-! ### C3: the boundary wrap -/

/-- C3 as stated fails: an agent at `x = -1` is wrapped to `x = winWidth`,
which is outside the half-open range `[0, winWidth)`. -/
theorem edges_not_half_open :
    ¬ (0 ≤ (Boid.Edges (⟨⟨-1, 0⟩, ⟨0, 0⟩, ⟨0, 0⟩⟩ : Boid ℝ)).position.x ∧
       (Boid.Edges (⟨⟨-1, 0⟩, ⟨0, 0⟩, ⟨0, 0⟩⟩ : Boid ℝ)).position.x < (winWidth : ℝ) ∧
       0 ≤ (Boid.Edges (⟨⟨-1, 0⟩, ⟨0, 0⟩, ⟨0, 0⟩⟩ : Boid ℝ)).position.y ∧
       (Boid.Edges (⟨⟨-1, 0⟩, ⟨0, 0⟩, ⟨0, 0⟩⟩ : Boid ℝ)).position.y < (winHeight : ℝ)) := by
  norm_num [Boid.Edges, winWidth, winHeight]

/-- C3 as amended: after `Edges` both coordinates lie in the closed ranges
`0 ≤ x ≤ winWidth` and `0 ≤ y ≤ winHeight`, for every boid state. -/
theorem edges_closed_box (b : Boid ℝ) :
    0 ≤ b.Edges.position.x ∧ b.Edges.position.x ≤ (winWidth : ℝ) ∧
    0 ≤ b.Edges.position.y ∧ b.Edges.position.y ≤ (winHeight : ℝ) := by
  have hw : (0 : ℝ) ≤ (winWidth : ℝ) := Nat.cast_nonneg _
  have hh : (0 : ℝ) ≤ (winHeight : ℝ) := Nat.cast_nonneg _
  refine ⟨?_, ?_, ?_, ?_⟩ <;> simp only [Boid.Edges] <;> split_ifs <;> linarith


/-! ### `Update` caps the speed -/

/-- `Update` is defined on every boid state and leaves a velocity within
`maxSpeed`. -/
theorem Boid.Update_velocity_bound (b : Boid ℝ) :
    ∃ b1, b.Update = some b1 ∧ b1.velocity.Mag ≤ 2 := by
  obtain ⟨w, hw, hle⟩ := (b.velocity.Add b.accel).Limit_bound 2 (by norm_num)
  exact ⟨⟨b.position.Add w, w, ⟨0, 0⟩⟩, by simp [Boid.Update, hw], hle⟩

/-! ### C5: the postcondition of `Limit` -/

/-- C5: for a bound `max ≥ 0`, a vector longer than `max` is divided by a
non-zero magnitude and comes out with magnitude exactly `max`, as a
non-negative multiple of the original; a vector no longer than `max` is
unchanged; the zero vector is unchanged; and `Limit` is always defined (it
divides by no zero). -/
theorem limit_postcondition (v : Vector ℝ) (max : ℝ) (hmax : 0 ≤ max) :
    (max < v.Mag → v.Mag ≠ 0 ∧
      ∃ w c, v.Limit max = some w ∧ w.Mag = max ∧ 0 ≤ c ∧ w = v.Mul c) ∧
    (v.Mag ≤ max → v.Limit max = some v) ∧
    (Vector.mk 0 0 : Vector ℝ).Limit max = some ⟨0, 0⟩ ∧
    (∃ w, v.Limit max = some w) := by
  refine ⟨fun h => ?_, v.Limit_of_le max, ?_, ?_⟩
  · have hpos : 0 < v.Mag := lt_of_le_of_lt hmax h
    refine ⟨hpos.ne.symm, _, max / v.Mag, v.Limit_of_gt max hmax h,
      v.Mag_rescaled max hmax hpos.ne.symm, div_nonneg hmax hpos.le, ?_⟩
    simp only [Vector.Mul, Vector.mk.injEq]
    constructor <;> ring
  · exact Vector.Limit_of_le _ max (by rw [Vector.Mag_zero]; exact hmax)
  · obtain ⟨w, hw, -⟩ := v.Limit_bound max hmax
    exact ⟨w, hw⟩

/-- The magnitude of `(3, 4)` is `5`. -/
theorem Vector.Mag_three_four : (Vector.mk 3 4 : Vector ℝ).Mag = 5 := by
  show Real.sqrt (3 * 3 + 4 * 4) = 5
  rw [show (3 * 3 + 4 * 4 : ℝ) = 5 * 5 by norm_num]
  exact Real.sqrt_mul_self (by norm_num)

/-- C5 at the vector `(3, 4)`, of magnitude 5, and the bound `2`: the bound is
non-negative, the vector is longer than it, and `Limit` returns a
non-negative multiple of magnitude exactly 2. -/
theorem limit_postcondition_witness :
    (0 : ℝ) ≤ 2 ∧ (2 : ℝ) < (Vector.mk 3 4 : Vector ℝ).Mag ∧
    ∃ w c, (Vector.mk 3 4 : Vector ℝ).Limit 2 = some w ∧ w.Mag = 2 ∧ 0 ≤ c ∧
      w = (Vector.mk 3 4 : Vector ℝ).Mul c := by
  have hlt : (2 : ℝ) < (Vector.mk 3 4 : Vector ℝ).Mag := by
    rw [Vector.Mag_three_four]; norm_num
  exact ⟨by norm_num, hlt, ((limit_postcondition ⟨3, 4⟩ 2 (by norm_num)).1 hlt).2⟩

/-! ### C6: idempotence of `Limit` -/

/-- C6 as stated fails on the code: in float64, `Limit(0.05)` of `(44, 117)`
(magnitude exactly 125) is `(0.0176, 0.04680000000000001)`, whose computed
magnitude `0.05000000000000001` is still above `0.05`; the second call
rescales again and returns `(0.0176, 0.0468)`, another vector. -/
theorem limit_not_idempotent_float64 :
    Float64.Limit ⟨44, 117⟩ 0.05 =
      some ⟨⟨5072854620270127, -58⟩, ⟨6744590801950056, -57⟩⟩ ∧
    Float64.Mag ⟨⟨5072854620270127, -58⟩, ⟨6744590801950056, -57⟩⟩ =
      ⟨7205759403792795, -57⟩ ∧
    (0.05 : F64) = ⟨7205759403792794, -57⟩ ∧
    Float64.Limit ⟨⟨5072854620270127, -58⟩, ⟨6744590801950056, -57⟩⟩ 0.05 =
      some ⟨⟨5072854620270127, -58⟩, ⟨6744590801950055, -57⟩⟩ ∧
    (Float64.Limit ⟨44, 117⟩ 0.05).bind (fun w => Float64.Limit w 0.05) ≠
      Float64.Limit ⟨44, 117⟩ 0.05 := by
  decide!

/-- For a negative bound `Limit` is not idempotent even over the reals:
`(1, 0)` limited to `-1` is `(-1, 0)`, and limited to `-1` once more it is
`(1, 0)` again. -/
theorem limit_not_idempotent_negative_bound :
    ((Vector.mk 1 0 : Vector ℝ).Limit (-1)).bind (fun w => w.Limit (-1)) ≠
      (Vector.mk 1 0 : Vector ℝ).Limit (-1) := by
  have h1 : (Vector.mk 1 0 : Vector ℝ).Limit (-1) = some ⟨-1, 0⟩ := by
    simp [Vector.Limit, Vector.Mag, Vector.Div, Vector.Mul]
  have h2 : (Vector.mk (-1) 0 : Vector ℝ).Limit (-1) = some ⟨1, 0⟩ := by
    simp [Vector.Limit, Vector.Mag, Vector.Div, Vector.Mul]
  rw [h1, Option.some_bind, h2]
  simp only [ne_eq, Option.some.injEq, Vector.mk.injEq, and_true]
  norm_num

/-- C6 as amended: with float64 read as real numbers, for every vector and
every bound `max ≥ 0`, applying `Limit max` twice yields the same vector as
applying it once. -/
theorem limit_idempotent (v : Vector ℝ) (max : ℝ) (hmax : 0 ≤ max) :
    (v.Limit max).bind (fun w => w.Limit max) = v.Limit max := by
  obtain ⟨w, hw, hle⟩ := v.Limit_bound max hmax
  rw [hw, Option.some_bind]
  exact w.Limit_of_le max hle

/-- C6 as amended, at the vector `(3, 4)` and the bound `2`. -/
theorem limit_idempotent_witness :
    (0 : ℝ) ≤ 2 ∧
    ((Vector.mk 3 4 : Vector ℝ).Limit 2).bind (fun w => w.Limit 2) =
      (Vector.mk 3 4 : Vector ℝ).Limit 2 :=
  ⟨by norm_num, limit_idempotent ⟨3, 4⟩ 2 (by norm_num)⟩


/-! ### C7: the bound on `Separation` -/

/-- Whatever `Separation` returns has magnitude at most `maxForce`: every
defined result comes out of `Limit 0.05`. -/
theorem Boid.Separation_bound_of_defined (b : Boid ℝ) (boids : List (Boid ℝ)) (s : Vector ℝ)
    (h : b.Separation boids = some s) : s.Mag ≤ 0.05 := by
  simp only [Boid.Separation, Option.bind_eq_some] at h
  obtain ⟨st, -, hst⟩ := h
  split_ifs at hst
  · simp only [Option.bind_eq_some] at hst
    obtain ⟨s1, -, hlim⟩ := hst
    exact Vector.Mag_le_of_Limit s1 s 0.05 (by norm_num) hlim
  · exact Vector.Mag_le_of_Limit st.1 s 0.05 (by norm_num) hst

/-- The loop of `Separation` leaves its state alone on a flock without
neighbours. -/
theorem Boid.separationScan_no_neighbour (b : Boid ℝ) (boids : List (Boid ℝ))
    (h : ∀ other ∈ boids, other ≠ b → 20 ≤ b.position.Distance other.position)
    (st : Vector ℝ × Nat) : b.separationScan boids st = some st := by
  induction boids with
  | nil => rfl
  | cons other rest ih =>
    have hstep : b.separationStep st other = some st := by
      unfold Boid.separationStep
      rw [if_neg]
      rintro ⟨hne, hd⟩
      exact absurd hd (not_lt.mpr (h other (List.mem_cons_self _ _) hne))
    simp only [Boid.separationScan, hstep, Option.some_bind]
    exact ih fun o ho hne => h o (List.mem_cons_of_mem _ ho) hne

/-- Without a neighbour within the radius 20 (the empty flock and the flock
holding only `b` included) `Separation` returns exactly the zero vector. -/
theorem Boid.Separation_no_neighbour (b : Boid ℝ) (boids : List (Boid ℝ))
    (h : ∀ other ∈ boids, other ≠ b → 20 ≤ b.position.Distance other.position) :
    b.Separation boids = some ⟨0, 0⟩ := by
  simp only [Boid.Separation, b.separationScan_no_neighbour boids h, Option.some_bind,
    gt_iff_lt, lt_self_iff_false, if_false]
  exact Vector.Limit_of_le _ _ (by rw [Vector.Mag_zero]; norm_num)

/-- C7, the code at `agentA` and the flock `[agentA, agentOnA]`: the second
entry is a distinct agent at distance 0, `Separation` divides by that
distance and returns no vector of the reals at all, in particular none of
magnitude at most 0.05. -/
theorem separation_unbounded_on_coincident_agents :
    agentA.Separation [agentA, agentOnA] = none ∧
    ¬ ∃ s, agentA.Separation [agentA, agentOnA] = some s ∧ s.Mag ≤ 0.05 := by
  have h : agentA.Separation [agentA, agentOnA] = none := by
    simp [Boid.Separation, Boid.separationScan, Boid.separationStep, agentA, agentOnA,
      Vector.Distance, Vector.Div]
  refine ⟨h, ?_⟩
  rintro ⟨s, hs, -⟩
  rw [h] at hs
  cases hs

/-! ### C8: alignment and cohesion of an isolated agent -/

/-- The loop of `Align` leaves its state alone on a flock without
neighbours. -/
theorem Boid.alignScan_no_neighbour (b : Boid ℝ) (boids : List (Boid ℝ))
    (h : ∀ other ∈ boids, other ≠ b → 50 ≤ b.position.Distance other.position) :
    b.alignScan boids = (⟨0, 0⟩, 0) := by
  unfold Boid.alignScan
  generalize ((⟨0, 0⟩, 0) : Vector ℝ × Nat) = st
  induction boids generalizing st with
  | nil => rfl
  | cons other rest ih =>
    have hstep : b.alignStep st other = st := by
      unfold Boid.alignStep
      rw [if_neg]
      rintro ⟨hne, hd⟩
      exact absurd hd (not_lt.mpr (h other (List.mem_cons_self _ _) hne))
    rw [List.foldl_cons, hstep]
    exact ih (fun o ho hne => h o (List.mem_cons_of_mem _ ho) hne) st

/-- The loop of `Cohesion` leaves its state alone on a flock without
neighbours. -/
theorem Boid.cohesionScan_no_neighbour (b : Boid ℝ) (boids : List (Boid ℝ))
    (h : ∀ other ∈ boids, other ≠ b → 30 ≤ b.position.Distance other.position) :
    b.cohesionScan boids = (⟨0, 0⟩, 0) := by
  unfold Boid.cohesionScan
  generalize ((⟨0, 0⟩, 0) : Vector ℝ × Nat) = st
  induction boids generalizing st with
  | nil => rfl
  | cons other rest ih =>
    have hstep : b.cohesionStep st other = st := by
      unfold Boid.cohesionStep
      rw [if_neg]
      rintro ⟨hne, hd⟩
      exact absurd hd (not_lt.mpr (h other (List.mem_cons_self _ _) hne))
    rw [List.foldl_cons, hstep]
    exact ih (fun o ho hne => h o (List.mem_cons_of_mem _ ho) hne) st

/-- C8: when every entry of the flock other than `b` itself is at distance at
least 50 from `b`, that is, outside every perception radius, `Align` returns
exactly `(0, 0)` and `Cohesion` returns exactly `(0, 0)`. -/
theorem isolated_align_cohesion_zero (b : Boid ℝ) (boids : List (Boid ℝ))
    (h : ∀ other ∈ boids, other ≠ b → 50 ≤ b.position.Distance other.position) :
    b.Align boids = some ⟨0, 0⟩ ∧ b.Cohesion boids = some ⟨0, 0⟩ := by
  have h30 : ∀ other ∈ boids, other ≠ b → 30 ≤ b.position.Distance other.position :=
    fun o ho hne => le_trans (by norm_num) (h o ho hne)
  constructor
  · simp [Boid.Align, b.alignScan_no_neighbour boids h]
  · simp [Boid.Cohesion, b.cohesionScan_no_neighbour boids h30]

/-- C8 at `agentA` in the flock `[agentA, agentFar]`, whose second entry is
500 away. -/
theorem isolated_align_cohesion_zero_witness :
    (∀ other ∈ [agentA, agentFar], other ≠ agentA →
      50 ≤ agentA.position.Distance other.position) ∧
    agentA.Align [agentA, agentFar] = some ⟨0, 0⟩ ∧
    agentA.Cohesion [agentA, agentFar] = some ⟨0, 0⟩ := by
  have hd : agentA.position.Distance agentFar.position = 500 := by
    show Real.sqrt ((400 - 100) * (400 - 100) + (500 - 100) * (500 - 100)) = 500
    rw [show ((400 - 100) * (400 - 100) + (500 - 100) * (500 - 100) : ℝ) = 500 * 500 by norm_num]
    exact Real.sqrt_mul_self (by norm_num)
  have hyp : ∀ other ∈ [agentA, agentFar], other ≠ agentA →
      50 ≤ agentA.position.Distance other.position := by
    intro other ho hne
    simp only [List.mem_cons, List.mem_singleton, List.not_mem_nil, or_false] at ho
    rcases ho with rfl | rfl
    · exact absurd rfl hne
    · rw [hd]; norm_num
  exact ⟨hyp, isolated_align_cohesion_zero agentA [agentA, agentFar] hyp⟩


/-! ### C9 and C10: the loops of `Align` and `Cohesion` as sums over the neighbours -/

/-- The loop of `Align` adds up the velocities of the neighbours and counts
them. -/
theorem Boid.alignStep_foldl (b : Boid ℝ) (boids : List (Boid ℝ)) (st : Vector ℝ × Nat) :
    boids.foldl b.alignStep st =
      (⟨st.1.x + ((neighboursByValue b 50 boids).map fun o => o.velocity.x).sum,
        st.1.y + ((neighboursByValue b 50 boids).map fun o => o.velocity.y).sum⟩,
        st.2 + (neighboursByValue b 50 boids).length) := by
  induction boids generalizing st with
  | nil => simp [neighboursByValue]
  | cons other rest ih =>
    rw [List.foldl_cons, ih]
    by_cases hc : other ≠ b ∧ b.position.Distance other.position < 50
    · have hstep : b.alignStep st other = (st.1.Add other.velocity, st.2 + 1) := by
        unfold Boid.alignStep
        rw [if_pos hc]
      have hfil : neighboursByValue b 50 (other :: rest) =
          other :: neighboursByValue b 50 rest := by
        unfold neighboursByValue
        rw [List.filter_cons_of_pos]
        exact decide_eq_true hc
      rw [hstep, hfil]
      simp only [Vector.Add, List.map_cons, List.sum_cons, List.length_cons, Prod.mk.injEq,
        Vector.mk.injEq]
      refine ⟨⟨by ring, by ring⟩, by ring⟩
    · have hstep : b.alignStep st other = st := by
        unfold Boid.alignStep
        rw [if_neg hc]
      have hfil : neighboursByValue b 50 (other :: rest) = neighboursByValue b 50 rest := by
        unfold neighboursByValue
        rw [List.filter_cons_of_neg]
        simpa using hc
      rw [hstep, hfil]

/-- The loop of `Cohesion` adds up the positions of the neighbours and counts
them. -/
theorem Boid.cohesionStep_foldl (b : Boid ℝ) (boids : List (Boid ℝ)) (st : Vector ℝ × Nat) :
    boids.foldl b.cohesionStep st =
      (⟨st.1.x + ((neighboursByValue b 30 boids).map fun o => o.position.x).sum,
        st.1.y + ((neighboursByValue b 30 boids).map fun o => o.position.y).sum⟩,
        st.2 + (neighboursByValue b 30 boids).length) := by
  induction boids generalizing st with
  | nil => simp [neighboursByValue]
  | cons other rest ih =>
    rw [List.foldl_cons, ih]
    by_cases hc : other ≠ b ∧ b.position.Distance other.position < 30
    · have hstep : b.cohesionStep st other = (st.1.Add other.position, st.2 + 1) := by
        unfold Boid.cohesionStep
        rw [if_pos hc]
      have hfil : neighboursByValue b 30 (other :: rest) =
          other :: neighboursByValue b 30 rest := by
        unfold neighboursByValue
        rw [List.filter_cons_of_pos]
        exact decide_eq_true hc
      rw [hstep, hfil]
      simp only [Vector.Add, List.map_cons, List.sum_cons, List.length_cons, Prod.mk.injEq,
        Vector.mk.injEq]
      refine ⟨⟨by ring, by ring⟩, by ring⟩
    · have hstep : b.cohesionStep st other = st := by
        unfold Boid.cohesionStep
        rw [if_neg hc]
      have hfil : neighboursByValue b 30 (other :: rest) = neighboursByValue b 30 rest := by
        unfold neighboursByValue
        rw [List.filter_cons_of_neg]
        simpa using hc
      rw [hstep, hfil]

/-- In a flock where no other entry has the state of `b = boids[i]`, leaving
out the index `i` and leaving out the value `b` select the same neighbours. -/
theorem neighboursByIndex_eq_byValue (boids : List (Boid ℝ)) (i : Nat) (b : Boid ℝ) (r : ℝ)
    (hb : boids[i]? = some b)
    (hdistinct : ∀ j other, j ≠ i → boids[j]? = some other → other ≠ b) :
    neighboursByIndex b i r boids = neighboursByValue b r boids := by
  unfold neighboursByIndex neighboursByValue
  conv_rhs => rw [← List.enum_map_snd boids, List.filter_map]
  congr 1
  apply List.filter_congr
  rintro ⟨j, other⟩ hmem
  have hget : boids[j]? = some other := List.mk_mem_enum_iff_getElem?.mp hmem
  by_cases hji : j = i
  · subst hji
    have : other = b := by rw [hb] at hget; exact (Option.some.inj hget).symm
    simp [this]
  · simp [hji, hdistinct j other hji hget]


/-- The loop of `Align` in closed form. -/
theorem Boid.alignScan_eq (b : Boid ℝ) (boids : List (Boid ℝ)) :
    b.alignScan boids =
      (⟨((neighboursByValue b 50 boids).map fun o => o.velocity.x).sum,
        ((neighboursByValue b 50 boids).map fun o => o.velocity.y).sum⟩,
        (neighboursByValue b 50 boids).length) := by
  unfold Boid.alignScan
  rw [b.alignStep_foldl boids]
  simp only [zero_add]

/-- The loop of `Cohesion` in closed form. -/
theorem Boid.cohesionScan_eq (b : Boid ℝ) (boids : List (Boid ℝ)) :
    b.cohesionScan boids =
      (⟨((neighboursByValue b 30 boids).map fun o => o.position.x).sum,
        ((neighboursByValue b 30 boids).map fun o => o.position.y).sum⟩,
        (neighboursByValue b 30 boids).length) := by
  unfold Boid.cohesionScan
  rw [b.cohesionStep_foldl boids]
  simp only [zero_add]

/-- Another entry within the radius makes the list of neighbours non-empty. -/
theorem neighboursByValue_length_pos (boids : List (Boid ℝ)) (i : Nat) (b : Boid ℝ) (r : ℝ)
    (hdistinct : ∀ j other, j ≠ i → boids[j]? = some other → other ≠ b)
    (hsome : ∃ j other, j ≠ i ∧ boids[j]? = some other ∧
      b.position.Distance other.position < r) :
    0 < (neighboursByValue b r boids).length := by
  obtain ⟨j, other, hji, hget, hd⟩ := hsome
  apply List.length_pos_of_mem (a := other)
  unfold neighboursByValue
  rw [List.mem_filter]
  exact ⟨List.getElem?_mem hget, decide_eq_true ⟨hdistinct j other hji hget, hd⟩⟩

/-- C9: in a flock where no other entry has the state of `b = boids[i]` and
some other entry is at distance below 50, `Align` is defined and returns the
mean velocity of exactly the other entries at distance below 50, limited to
2, minus the velocity of `b`, limited to 0.05. -/
theorem align_refines_spec (boids : List (Boid ℝ)) (i : Nat) (b : Boid ℝ)
    (hb : boids[i]? = some b)
    (hdistinct : ∀ j other, j ≠ i → boids[j]? = some other → other ≠ b)
    (hsome : ∃ j other, j ≠ i ∧ boids[j]? = some other ∧
      b.position.Distance other.position < 50) :
    b.Align boids = alignSpec b i boids ∧ ∃ s, b.Align boids = some s := by
  have hN := neighboursByIndex_eq_byValue boids i b 50 hb hdistinct
  have hlen := neighboursByValue_length_pos boids i b 50 hdistinct hsome
  have hne : ((neighboursByValue b 50 boids).length : ℝ) ≠ 0 :=
    Nat.cast_ne_zero.mpr hlen.ne.symm
  have hcode : b.Align boids =
      ((meanVector ((neighboursByValue b 50 boids).map Boid.velocity)).Limit 2).bind fun m =>
        (m.Sub b.velocity).Limit 0.05 := by
    simp only [Boid.Align, b.alignScan_eq boids, gt_iff_lt, hlen, if_true, Vector.Div, hne,
      if_false, Option.some_bind, meanVector, List.map_map, List.length_map]
    rfl
  refine ⟨by rw [hcode, alignSpec, hN], ?_⟩
  obtain ⟨m, hm, -⟩ :=
    (meanVector ((neighboursByValue b 50 boids).map Boid.velocity)).Limit_bound 2 (by norm_num)
  obtain ⟨s, hs, -⟩ := (m.Sub b.velocity).Limit_bound 0.05 (by norm_num)
  exact ⟨s, by rw [hcode, hm, Option.some_bind, hs]⟩

/-- C10: in a flock where no other entry has the state of `b = boids[i]` and
some other entry is at distance below 30, `Cohesion` is defined and returns
the mean position of exactly the other entries at distance below 30, minus
the position of `b`, limited to 0.05. -/
theorem cohesion_refines_spec (boids : List (Boid ℝ)) (i : Nat) (b : Boid ℝ)
    (hb : boids[i]? = some b)
    (hdistinct : ∀ j other, j ≠ i → boids[j]? = some other → other ≠ b)
    (hsome : ∃ j other, j ≠ i ∧ boids[j]? = some other ∧
      b.position.Distance other.position < 30) :
    b.Cohesion boids = cohesionSpec b i boids ∧ ∃ s, b.Cohesion boids = some s := by
  have hN := neighboursByIndex_eq_byValue boids i b 30 hb hdistinct
  have hlen := neighboursByValue_length_pos boids i b 30 hdistinct hsome
  have hne : ((neighboursByValue b 30 boids).length : ℝ) ≠ 0 :=
    Nat.cast_ne_zero.mpr hlen.ne.symm
  have hcode : b.Cohesion boids =
      ((meanVector ((neighboursByValue b 30 boids).map Boid.position)).Sub b.position).Limit
        0.05 := by
    simp only [Boid.Cohesion, b.cohesionScan_eq boids, gt_iff_lt, hlen, if_true, Vector.Div, hne,
      if_false, Option.some_bind, meanVector, List.map_map, List.length_map]
    rfl
  refine ⟨by rw [hcode, cohesionSpec, hN], ?_⟩
  obtain ⟨s, hs, -⟩ :=
    ((meanVector ((neighboursByValue b 30 boids).map Boid.position)).Sub b.position).Limit_bound
      0.05 (by norm_num)
  exact ⟨s, by rw [hcode, hs]⟩


/-- The magnitude of a vector along the x-axis. -/
theorem Vector.Mag_x_axis (a : ℝ) : (Vector.mk a 0 : Vector ℝ).Mag = |a| := by
  show Real.sqrt (a * a + 0 * 0) = |a|
  rw [mul_zero, add_zero]
  exact Real.sqrt_mul_self_eq_abs a

/-- The distance of two points of equal height. -/
theorem Vector.Distance_same_y (a a2 c : ℝ) :
    (Vector.mk a c : Vector ℝ).Distance ⟨a2, c⟩ = |a2 - a| := by
  show Real.sqrt ((a2 - a) * (a2 - a) + (c - c) * (c - c)) = |a2 - a|
  rw [sub_self, mul_zero, add_zero]
  exact Real.sqrt_mul_self_eq_abs _

/-- The flock `[agentA, agentB]` meets the hypotheses of C9 and C10 at index
0: no other entry has the state of `agentA`. -/
theorem scenario_distinct :
    ∀ j other, j ≠ 0 → [agentA, agentB][j]? = some other → other ≠ agentA := by
  intro j other hj hget
  match j, hj, hget with
  | 1, _, hget =>
    simp only [List.getElem?_cons_succ, List.getElem?_cons_zero, Option.some.injEq] at hget
    subst hget
    simp [agentA, agentB]
  | j + 2, _, hget => simp at hget

/-- In the flock `[agentA, agentB]` the second agent is 10 away from the
first. -/
theorem scenario_distance : agentA.position.Distance agentB.position = 10 := by
  simp only [agentA, agentB, Vector.Distance_same_y]
  norm_num

/-- C9 at the scenario of spec §8: agents A at `(100, 100)` with velocity
`(1, 0)` and B at `(110, 100)` with velocity `(-1, 0)`; `Align` for A is exactly
`(-0.05, 0)`. -/
theorem align_refines_spec_witness :
    [agentA, agentB][0]? = some agentA ∧
    (∀ j other, j ≠ 0 → [agentA, agentB][j]? = some other → other ≠ agentA) ∧
    (∃ j other, j ≠ 0 ∧ [agentA, agentB][j]? = some other ∧
      agentA.position.Distance other.position < 50) ∧
    agentA.Align [agentA, agentB] = some ⟨-0.05, 0⟩ := by
  have hsome : ∃ j other, j ≠ 0 ∧ [agentA, agentB][j]? = some other ∧
      agentA.position.Distance other.position < 50 :=
    ⟨1, agentB, by decide, rfl, by rw [scenario_distance]; norm_num⟩
  refine ⟨rfl, scenario_distinct, hsome, ?_⟩
  rw [(align_refines_spec [agentA, agentB] 0 agentA rfl scenario_distinct hsome).1]
  have hN : neighboursByIndex agentA 0 50 [agentA, agentB] = [agentB] := by
    simp [neighboursByIndex, List.enum, List.enumFrom, List.filter, scenario_distance]
    norm_num
  have h1 : (Vector.mk (-1) 0 : Vector ℝ).Limit 2 = some ⟨-1, 0⟩ :=
    Vector.Limit_of_le _ _ (by rw [Vector.Mag_x_axis]; norm_num)
  have h2 : (Vector.mk (-2) 0 : Vector ℝ).Limit 0.05 = some ⟨-0.05, 0⟩ := by
    have hmag : (Vector.mk (-2) 0 : Vector ℝ).Mag = 2 := by
      rw [Vector.Mag_x_axis]; norm_num
    rw [Vector.Limit_of_gt _ _ (by norm_num) (by rw [hmag]; norm_num), hmag]
    norm_num
  have hmean : meanVector ([agentB].map Boid.velocity) = ⟨-1, 0⟩ := by
    simp [meanVector, agentB]
  have hsub : (Vector.mk (-1) 0 : Vector ℝ).Sub agentA.velocity = ⟨-2, 0⟩ := by
    simp only [Vector.Sub, agentA, Vector.mk.injEq]
    norm_num
  rw [alignSpec, hN, hmean, h1, Option.some_bind, hsub, h2]

/-- C10 at the scenario of spec §8: agents A at `(100, 100)` and B at
`(110, 100)`; `Cohesion` for A is exactly `(0.05, 0)`. -/
theorem cohesion_refines_spec_witness :
    [agentA, agentB][0]? = some agentA ∧
    (∀ j other, j ≠ 0 → [agentA, agentB][j]? = some other → other ≠ agentA) ∧
    (∃ j other, j ≠ 0 ∧ [agentA, agentB][j]? = some other ∧
      agentA.position.Distance other.position < 30) ∧
    agentA.Cohesion [agentA, agentB] = some ⟨0.05, 0⟩ := by
  have hsome : ∃ j other, j ≠ 0 ∧ [agentA, agentB][j]? = some other ∧
      agentA.position.Distance other.position < 30 :=
    ⟨1, agentB, by decide, rfl, by rw [scenario_distance]; norm_num⟩
  refine ⟨rfl, scenario_distinct, hsome, ?_⟩
  rw [(cohesion_refines_spec [agentA, agentB] 0 agentA rfl scenario_distinct hsome).1]
  have hN : neighboursByIndex agentA 0 30 [agentA, agentB] = [agentB] := by
    simp [neighboursByIndex, List.enum, List.enumFrom, List.filter, scenario_distance]
    norm_num
  have h2 : (Vector.mk 10 0 : Vector ℝ).Limit 0.05 = some ⟨0.05, 0⟩ := by
    have hmag : (Vector.mk 10 0 : Vector ℝ).Mag = 10 := by
      rw [Vector.Mag_x_axis]; norm_num
    rw [Vector.Limit_of_gt _ _ (by norm_num) (by rw [hmag]; norm_num), hmag]
    norm_num
  have hmean : meanVector ([agentB].map Boid.position) = ⟨110, 100⟩ := by
    simp [meanVector, agentB]
  have hsub : (Vector.mk 110 100 : Vector ℝ).Sub agentA.position = ⟨10, 0⟩ := by
    simp only [Vector.Sub, agentA, Vector.mk.injEq]
    norm_num
  rw [cohesionSpec, hN, hmean, hsub, h2]


/-! ### Where the rules are defined

Over the reals `Align` and `Cohesion` are defined on every flock, and
`Separation` is undefined exactly when an entry that differs from `b` sits at
distance 0 from it. -/

/-- `Align` is defined on every flock. -/
theorem Boid.Align_defined (b : Boid ℝ) (boids : List (Boid ℝ)) :
    ∃ s, b.Align boids = some s := by
  unfold Boid.Align
  by_cases hpos : (b.alignScan boids).2 > 0
  · have hne : ((b.alignScan boids).2 : ℝ) ≠ 0 := Nat.cast_ne_zero.mpr (Nat.pos_iff_ne_zero.mp hpos)
    simp only [hpos, if_true, Vector.Div, hne, if_false, Option.some_bind]
    obtain ⟨m, hm, -⟩ := (Vector.mk ((b.alignScan boids).1.x / ((b.alignScan boids).2 : ℝ))
      ((b.alignScan boids).1.y / ((b.alignScan boids).2 : ℝ))).Limit_bound 2 (by norm_num)
    obtain ⟨s, hs, -⟩ := (m.Sub b.velocity).Limit_bound 0.05 (by norm_num)
    exact ⟨s, by rw [hm, Option.some_bind, hs]⟩
  · rw [if_neg hpos]
    exact ⟨_, rfl⟩

/-- `Cohesion` is defined on every flock. -/
theorem Boid.Cohesion_defined (b : Boid ℝ) (boids : List (Boid ℝ)) :
    ∃ s, b.Cohesion boids = some s := by
  unfold Boid.Cohesion
  by_cases hpos : (b.cohesionScan boids).2 > 0
  · have hne : ((b.cohesionScan boids).2 : ℝ) ≠ 0 :=
      Nat.cast_ne_zero.mpr (Nat.pos_iff_ne_zero.mp hpos)
    simp only [hpos, if_true, Vector.Div, hne, if_false, Option.some_bind]
    obtain ⟨s, hs, -⟩ := ((Vector.mk ((b.cohesionScan boids).1.x / ((b.cohesionScan boids).2 : ℝ))
      ((b.cohesionScan boids).1.y / ((b.cohesionScan boids).2 : ℝ))).Sub b.position).Limit_bound
        0.05 (by norm_num)
    exact ⟨s, hs⟩
  · rw [if_neg hpos]
    exact ⟨_, rfl⟩

/-- One iteration of the loop of `Separation` is undefined exactly on an
entry that differs from `b` and is at distance 0. -/
theorem Boid.separationStep_eq_none (b other : Boid ℝ) (st : Vector ℝ × Nat) :
    b.separationStep st other = none ↔
      other ≠ b ∧ b.position.Distance other.position = 0 := by
  unfold Boid.separationStep Vector.Div
  constructor
  · intro h
    by_cases hc : other ≠ b ∧ b.position.Distance other.position < 20
    · rw [if_pos hc] at h
      by_cases hd : b.position.Distance other.position = 0
      · exact ⟨hc.1, hd⟩
      · simp [hd] at h
    · simp [hc] at h
  · rintro ⟨hne, hd⟩
    have hc : other ≠ b ∧ b.position.Distance other.position < 20 :=
      ⟨hne, by rw [hd]; norm_num⟩
    simp [hc, hd]

/-- The loop of `Separation` is undefined exactly when the flock holds an
entry that differs from `b` and is at distance 0. -/
theorem Boid.separationScan_eq_none (b : Boid ℝ) (boids : List (Boid ℝ))
    (st : Vector ℝ × Nat) :
    b.separationScan boids st = none ↔
      ∃ other ∈ boids, other ≠ b ∧ b.position.Distance other.position = 0 := by
  induction boids generalizing st with
  | nil => simp [Boid.separationScan]
  | cons o rest ih =>
    cases hstep : b.separationStep st o with
    | none =>
      simp only [Boid.separationScan, hstep, Option.none_bind, true_iff]
      exact ⟨o, List.mem_cons_self _ _, (b.separationStep_eq_none o st).mp hstep⟩
    | some st1 =>
      have hno : ¬ (o ≠ b ∧ b.position.Distance o.position = 0) := by
        intro hc
        rw [(b.separationStep_eq_none o st).mpr hc] at hstep
        cases hstep
      simp only [Boid.separationScan, hstep, Option.some_bind, ih st1, List.mem_cons]
      constructor
      · rintro ⟨other, hmem, hc⟩
        exact ⟨other, Or.inr hmem, hc⟩
      · rintro ⟨other, hmem | hmem, hc⟩
        · exact absurd (hmem ▸ hc) hno
        · exact ⟨other, hmem, hc⟩

/-- `Separation` is undefined exactly when the flock holds an entry that
differs from `b` and is at distance 0: the division by the distance is its
only division by zero. -/
theorem Boid.Separation_eq_none (b : Boid ℝ) (boids : List (Boid ℝ)) :
    b.Separation boids = none ↔
      ∃ other ∈ boids, other ≠ b ∧ b.position.Distance other.position = 0 := by
  rw [← b.separationScan_eq_none boids (⟨0, 0⟩, 0)]
  unfold Boid.Separation
  cases hscan : b.separationScan boids (⟨0, 0⟩, 0) with
  | none => simp
  | some st =>
    simp only [Option.some_bind]
    by_cases hpos : st.2 > 0
    · have hne : (st.2 : ℝ) ≠ 0 := Nat.cast_ne_zero.mpr (Nat.pos_iff_ne_zero.mp hpos)
      simp only [hpos, if_true, Vector.Div, hne, if_false, Option.some_bind]
      obtain ⟨s, hs, -⟩ := (Vector.mk (st.1.x / (st.2 : ℝ)) (st.1.y / (st.2 : ℝ))).Limit_bound
        0.05 (by norm_num)
      rw [hs]
      simp
    · simp only [hpos, if_false]
      obtain ⟨s, hs, -⟩ := st.1.Limit_bound 0.05 (by norm_num)
      rw [hs]
      simp

/-- Two points are at distance 0 exactly when they are the same point. -/
theorem Vector.Distance_eq_zero (v v2 : Vector ℝ) : v.Distance v2 = 0 ↔ v2 = v := by
  have hnn : 0 ≤ (v2.x - v.x) * (v2.x - v.x) + (v2.y - v.y) * (v2.y - v.y) :=
    add_nonneg (mul_self_nonneg _) (mul_self_nonneg _)
  show Real.sqrt ((v2.x - v.x) * (v2.x - v.x) + (v2.y - v.y) * (v2.y - v.y)) = 0 ↔ v2 = v
  rw [Real.sqrt_eq_zero hnn]
  constructor
  · intro h
    have hx : v2.x - v.x = 0 := by nlinarith [mul_self_nonneg (v2.x - v.x), mul_self_nonneg (v2.y - v.y)]
    have hy : v2.y - v.y = 0 := by nlinarith [mul_self_nonneg (v2.x - v.x), mul_self_nonneg (v2.y - v.y)]
    cases v
    cases v2
    simp only [Vector.mk.injEq]
    exact ⟨by linarith, by linarith⟩
  · rintro rfl
    simp


/-! ### C11: the loop of `Separation` as a sum over the neighbours -/

theorem Vector.Distance_nonneg (v v2 : Vector ℝ) : 0 ≤ v.Distance v2 :=
  Real.sqrt_nonneg _

/-- On a flock without a differing entry at distance 0, the loop of
`Separation` is defined; it adds up the difference vectors divided by the
distance, over the neighbours, and counts them. -/
theorem Boid.separationScan_eq (b : Boid ℝ) (boids : List (Boid ℝ)) (st : Vector ℝ × Nat)
    (h : ∀ other ∈ boids, other ≠ b → b.position.Distance other.position ≠ 0) :
    b.separationScan boids st =
      some (⟨st.1.x + ((neighboursByValue b 20 boids).map fun o =>
          (b.position.x - o.position.x) / b.position.Distance o.position).sum,
        st.1.y + ((neighboursByValue b 20 boids).map fun o =>
          (b.position.y - o.position.y) / b.position.Distance o.position).sum⟩,
        st.2 + (neighboursByValue b 20 boids).length) := by
  induction boids generalizing st with
  | nil => simp [neighboursByValue, Boid.separationScan]
  | cons other rest ih =>
    have hrest : ∀ o ∈ rest, o ≠ b → b.position.Distance o.position ≠ 0 :=
      fun o ho hne => h o (List.mem_cons_of_mem _ ho) hne
    by_cases hc : other ≠ b ∧ b.position.Distance other.position < 20
    · have hd : b.position.Distance other.position ≠ 0 :=
        h other (List.mem_cons_self _ _) hc.1
      have hstep : b.separationStep st other =
          some (st.1.Add ⟨(b.position.x - other.position.x) / b.position.Distance other.position,
            (b.position.y - other.position.y) / b.position.Distance other.position⟩,
            st.2 + 1) := by
        unfold Boid.separationStep
        rw [if_pos hc]
        simp only [Vector.Div, hd, if_false, Option.some_bind]
      have hfil : neighboursByValue b 20 (other :: rest) =
          other :: neighboursByValue b 20 rest := by
        unfold neighboursByValue
        rw [List.filter_cons_of_pos]
        exact decide_eq_true hc
      rw [Boid.separationScan, hstep, Option.some_bind, ih _ hrest, hfil]
      simp only [Vector.Add, List.map_cons, List.sum_cons, List.length_cons, Option.some.injEq,
        Prod.mk.injEq, Vector.mk.injEq]
      refine ⟨⟨by ring, by ring⟩, by ring⟩
    · have hstep : b.separationStep st other = some st := by
        unfold Boid.separationStep
        rw [if_neg hc]
      have hfil : neighboursByValue b 20 (other :: rest) = neighboursByValue b 20 rest := by
        unfold neighboursByValue
        rw [List.filter_cons_of_neg]
        simpa using hc
      rw [Boid.separationScan, hstep, Option.some_bind, ih _ hrest, hfil]

/-- In a flock where no other entry has the state of `b = boids[i]` or sits
at distance 0 from it, the other entries at a distance `0 < d < 20` are the
entries the loop of `Separation` takes for neighbours. -/
theorem separation_neighbours_eq_byValue (boids : List (Boid ℝ)) (i : Nat) (b : Boid ℝ)
    (hb : boids[i]? = some b)
    (hdistinct : ∀ j other, j ≠ i → boids[j]? = some other → other ≠ b)
    (hnozero : ∀ j other, j ≠ i → boids[j]? = some other →
      b.position.Distance other.position ≠ 0) :
    (boids.enum.filter fun p => p.1 ≠ i ∧ 0 < b.position.Distance p.2.position ∧
      b.position.Distance p.2.position < 20).map Prod.snd = neighboursByValue b 20 boids := by
  unfold neighboursByValue
  conv_rhs => rw [← List.enum_map_snd boids, List.filter_map]
  congr 1
  apply List.filter_congr
  rintro ⟨j, other⟩ hmem
  have hget : boids[j]? = some other := List.mk_mem_enum_iff_getElem?.mp hmem
  by_cases hji : j = i
  · subst hji
    have : other = b := by rw [hb] at hget; exact (Option.some.inj hget).symm
    simp [this]
  · have hpos : 0 < b.position.Distance other.position :=
      lt_of_le_of_ne (Vector.Distance_nonneg _ _) (hnozero j other hji hget).symm
    simp [hji, hdistinct j other hji hget, hpos]


/-- C11: in a flock where no other entry has the state of `b = boids[i]` and
no other entry is at distance 0 from `b`, `Separation` is defined and returns
`Limit(S, 0.05)`, where `S` is the mean, over exactly the other entries at a
distance `d` with `0 < d < 20`, of `(b.position - other.position) / d`, and
`S` is `(0, 0)` when there is no such entry. -/
theorem separation_refines_spec (boids : List (Boid ℝ)) (i : Nat) (b : Boid ℝ)
    (hb : boids[i]? = some b)
    (hdistinct : ∀ j other, j ≠ i → boids[j]? = some other → other ≠ b)
    (hnozero : ∀ j other, j ≠ i → boids[j]? = some other →
      b.position.Distance other.position ≠ 0) :
    b.Separation boids = separationSpec b i boids ∧ ∃ s, b.Separation boids = some s := by
  have hN := separation_neighbours_eq_byValue boids i b hb hdistinct hnozero
  have hz : ∀ other ∈ boids, other ≠ b → b.position.Distance other.position ≠ 0 := by
    intro other hmem hne
    obtain ⟨j, hj⟩ := List.getElem?_of_mem hmem
    by_cases hji : j = i
    · subst hji
      rw [hb] at hj
      exact absurd (Option.some.inj hj).symm hne
    · exact hnozero j other hji hj
  have hcode : b.Separation boids = separationSpec b i boids := by
    unfold separationSpec
    simp only [hN]
    unfold Boid.Separation
    rw [b.separationScan_eq boids _ hz]
    cases hl : neighboursByValue b 20 boids with
    | nil => simp
    | cons o t =>
      have hne : ((t.length : ℝ) + 1) ≠ 0 := by positivity
      simp [Vector.Div, hne, meanVector, Function.comp_def]
  refine ⟨hcode, ?_⟩
  cases hs : b.Separation boids with
  | some s => exact ⟨s, rfl⟩
  | none =>
    obtain ⟨other, hmem, hne, hd⟩ := (b.Separation_eq_none boids).mp hs
    exact absurd hd (hz other hmem hne)

/-- C11 at the scenario of spec §8: agents A at `(100, 100)` and B at
`(110, 100)`, 10 apart; `Separation` for A is exactly `(-0.05, 0)`. -/
theorem separation_refines_spec_witness :
    [agentA, agentB][0]? = some agentA ∧
    (∀ j other, j ≠ 0 → [agentA, agentB][j]? = some other → other ≠ agentA) ∧
    (∀ j other, j ≠ 0 → [agentA, agentB][j]? = some other →
      agentA.position.Distance other.position ≠ 0) ∧
    agentA.Separation [agentA, agentB] = some ⟨-0.05, 0⟩ := by
  have hnozero : ∀ j other, j ≠ 0 → [agentA, agentB][j]? = some other →
      agentA.position.Distance other.position ≠ 0 := by
    intro j other hj hget
    match j, hj, hget with
    | 1, _, hget =>
      simp only [List.getElem?_cons_succ, List.getElem?_cons_zero, Option.some.injEq] at hget
      subst hget
      rw [scenario_distance]
      norm_num
    | j + 2, _, hget => simp at hget
  refine ⟨rfl, scenario_distinct, hnozero, ?_⟩
  rw [(separation_refines_spec [agentA, agentB] 0 agentA rfl scenario_distinct hnozero).1]
  have h2 : (Vector.mk (-1) 0 : Vector ℝ).Limit 0.05 = some ⟨-0.05, 0⟩ := by
    have hmag : (Vector.mk (-1) 0 : Vector ℝ).Mag = 1 := by
      rw [Vector.Mag_x_axis]; norm_num
    rw [Vector.Limit_of_gt _ _ (by norm_num) (by rw [hmag]; norm_num), hmag]
    norm_num
  have hS : (if ([agentB] : List (Boid ℝ)).isEmpty then (⟨0, 0⟩ : Vector ℝ)
      else meanVector ([agentB].map fun o =>
        ⟨(agentA.position.x - o.position.x) / agentA.position.Distance o.position,
          (agentA.position.y - o.position.y) / agentA.position.Distance o.position⟩)) =
      ⟨-1, 0⟩ := by
    simp only [List.isEmpty_cons, Bool.false_eq_true, if_false, List.map_cons, List.map_nil,
      meanVector, scenario_distance, List.sum_cons, List.sum_nil, List.length_singleton]
    simp only [agentA, agentB, Vector.mk.injEq]
    norm_num
  have hns : ((([agentA, agentB] : List (Boid ℝ)).enum.filter fun p =>
      p.1 ≠ 0 ∧ 0 < agentA.position.Distance p.2.position ∧
        agentA.position.Distance p.2.position < 20).map Prod.snd) = [agentB] := by
    simp [List.enum, List.enumFrom, List.filter, scenario_distance]
    norm_num
  unfold separationSpec
  simp only [hns]
  rw [hS, h2]


/-! ### The tick of the two-agent scenario -/

/-- `Limit 0.05` of a vector pointing along the positive x-axis, longer than
0.05. -/
theorem Vector.Limit_force_pos_x (a : ℝ) (h : 0.05 < a) :
    (Vector.mk a 0 : Vector ℝ).Limit 0.05 = some ⟨0.05, 0⟩ := by
  have hpos : 0 < a := lt_trans (by norm_num) h
  have hmag : (Vector.mk a 0 : Vector ℝ).Mag = a := by
    rw [Vector.Mag_x_axis, abs_of_pos hpos]
  rw [Vector.Limit_of_gt _ _ (by norm_num) (by rw [hmag]; exact h), hmag]
  simp only [Option.some.injEq, Vector.mk.injEq]
  constructor
  · field_simp
  · simp

/-- `Limit 0.05` of a vector pointing along the negative x-axis, longer than
0.05. -/
theorem Vector.Limit_force_neg_x (a : ℝ) (h : a < -0.05) :
    (Vector.mk a 0 : Vector ℝ).Limit 0.05 = some ⟨-0.05, 0⟩ := by
  have hneg : a < 0 := lt_trans h (by norm_num)
  have hmag : (Vector.mk a 0 : Vector ℝ).Mag = -a := by
    rw [Vector.Mag_x_axis, abs_of_neg hneg]
  rw [Vector.Limit_of_gt _ _ (by norm_num) (by rw [hmag]; linarith), hmag]
  simp only [Option.some.injEq, Vector.mk.injEq]
  constructor
  · have : -a ≠ 0 := by linarith
    field_simp
    ring
  · simp

/-- A vector along the x-axis no longer than the bound is left alone. -/
theorem Vector.Limit_x_axis_of_le (a max : ℝ) (h : |a| ≤ max) :
    (Vector.mk a 0 : Vector ℝ).Limit max = some ⟨a, 0⟩ :=
  Vector.Limit_of_le _ _ (by rw [Vector.Mag_x_axis]; exact h)

/-- The three rules for an agent with exactly one neighbour `o`, at a
distance `d` with `0 < d`, within every radius. -/
theorem rules_one_neighbour (b o : Boid ℝ) (boids : List (Boid ℝ))
    (h50 : neighboursByValue b 50 boids = [o]) (h30 : neighboursByValue b 30 boids = [o])
    (h20 : neighboursByValue b 20 boids = [o])
    (hz : ∀ other ∈ boids, other ≠ b → b.position.Distance other.position ≠ 0) :
    b.Align boids = (o.velocity.Limit 2).bind (fun m => (m.Sub b.velocity).Limit 0.05) ∧
    b.Cohesion boids = (o.position.Sub b.position).Limit 0.05 ∧
    b.Separation boids =
      (Vector.mk ((b.position.x - o.position.x) / b.position.Distance o.position)
        ((b.position.y - o.position.y) / b.position.Distance o.position)).Limit 0.05 := by
  refine ⟨?_, ?_, ?_⟩
  · simp [Boid.Align, b.alignScan_eq boids, h50, Vector.Div]
  · simp [Boid.Cohesion, b.cohesionScan_eq boids, h30, Vector.Div]
  · simp [Boid.Separation, b.separationScan_eq boids _ hz, h20, Vector.Div]

/-- `Edges` leaves an agent inside the closed window alone. -/
theorem Boid.Edges_of_inside (b : Boid ℝ)
    (hx0 : 0 ≤ b.position.x) (hx1 : b.position.x ≤ (winWidth : ℝ))
    (hy0 : 0 ≤ b.position.y) (hy1 : b.position.y ≤ (winHeight : ℝ)) : b.Edges = b := by
  cases b with
  | mk position velocity accel =>
    cases position with
    | mk x y =>
      simp only [Boid.Edges, gt_iff_lt, not_lt.mpr hx1, not_lt.mpr hx0, not_lt.mpr hy1,
        not_lt.mpr hy0, if_false]

/-! ### `Update` in closed form -/

/-- `Update` in closed form: the new velocity is the limited sum, the new
position is the old one plus the new velocity, the acceleration is zero. -/
theorem Boid.Update_eq (b : Boid ℝ) :
    ∃ v1, (b.velocity.Add b.accel).Limit 2 = some v1 ∧ v1.Mag ≤ 2 ∧
      b.Update = some ⟨b.position.Add v1, v1, ⟨0, 0⟩⟩ := by
  obtain ⟨v1, hv1, hle⟩ := (b.velocity.Add b.accel).Limit_bound 2 (by norm_num)
  exact ⟨v1, hv1, hle, by simp only [Boid.Update, hv1, Option.some_bind]⟩

/-! ### C14: symmetry of `Distance` -/

/-- C14: for every pair of vectors, `a.Distance(b)` equals `b.Distance(a)`, and
both equal the Euclidean norm of the difference `a - b`. -/
theorem distance_symmetric (a b : Vector ℝ) :
    a.Distance b = b.Distance a ∧ a.Distance b = (a.Sub b).Mag ∧
      b.Distance a = (a.Sub b).Mag := by
  have h1 : a.Distance b = (a.Sub b).Mag := by
    show Real.sqrt ((b.x - a.x) * (b.x - a.x) + (b.y - a.y) * (b.y - a.y)) =
      Real.sqrt ((a.x - b.x) * (a.x - b.x) + (a.y - b.y) * (a.y - b.y))
    congr 1
    ring
  have h2 : b.Distance a = (a.Sub b).Mag := rfl
  exact ⟨h1.trans h2.symm, h1, h2⟩

/-! ### The initial state of an agent -/

/-- Whatever `math.Cos` and `math.Sin` compute, `NewBoid` returns the position
`(x, y)`, the velocity `(cos angle, sin angle)` for the angle `r * 2 * pi`, and
the acceleration `(0, 0)`. -/
theorem NewBoid_fields {K : Type} [LinearOrderedField K] [HasSqrt K] [HasTrig K] (r x y : K) :
    (NewBoid r x y).position = ⟨x, y⟩ ∧
    (NewBoid r x y).velocity =
      ⟨HasTrig.cos (r * 2 * HasTrig.pi), HasTrig.sin (r * 2 * HasTrig.pi)⟩ ∧
    (NewBoid r x y).accel = ⟨0, 0⟩ :=
  ⟨rfl, rfl, rfl⟩


/-! ### C17: the bound on `Align` and `Cohesion` -/

/-- `Align` is defined on every flock and its result has magnitude at most
`maxForce`. -/
theorem Boid.Align_bound (b : Boid ℝ) (boids : List (Boid ℝ)) :
    ∃ s, b.Align boids = some s ∧ s.Mag ≤ 0.05 := by
  obtain ⟨s, hs⟩ := b.Align_defined boids
  refine ⟨s, hs, ?_⟩
  unfold Boid.Align at hs
  by_cases hpos : (b.alignScan boids).2 > 0
  · simp only [hpos, if_true, Option.bind_eq_some] at hs
    obtain ⟨s1, -, s2, -, hlim⟩ := hs
    exact Vector.Mag_le_of_Limit _ s 0.05 (by norm_num) hlim
  · rw [if_neg hpos, b.alignScan_eq boids] at hs
    rw [b.alignScan_eq boids] at hpos
    have hnil : neighboursByValue b 50 boids = [] :=
      List.length_eq_zero.mp (Nat.eq_zero_of_not_pos hpos)
    rw [hnil] at hs
    simp only [List.map_nil, List.sum_nil, Option.some.injEq] at hs
    rw [← hs, Vector.Mag_zero]
    norm_num

/-- `Cohesion` is defined on every flock and its result has magnitude at most
`maxForce`. -/
theorem Boid.Cohesion_bound (b : Boid ℝ) (boids : List (Boid ℝ)) :
    ∃ s, b.Cohesion boids = some s ∧ s.Mag ≤ 0.05 := by
  obtain ⟨s, hs⟩ := b.Cohesion_defined boids
  refine ⟨s, hs, ?_⟩
  unfold Boid.Cohesion at hs
  by_cases hpos : (b.cohesionScan boids).2 > 0
  · simp only [hpos, if_true, Option.bind_eq_some] at hs
    obtain ⟨s1, -, hlim⟩ := hs
    exact Vector.Mag_le_of_Limit _ s 0.05 (by norm_num) hlim
  · rw [if_neg hpos, b.cohesionScan_eq boids] at hs
    rw [b.cohesionScan_eq boids] at hpos
    have hnil : neighboursByValue b 30 boids = [] :=
      List.length_eq_zero.mp (Nat.eq_zero_of_not_pos hpos)
    rw [hnil] at hs
    simp only [List.map_nil, List.sum_nil, Option.some.injEq] at hs
    rw [← hs, Vector.Mag_zero]
    norm_num

/-- C17 as stated fails on the code: in float64, `Cohesion` of the agent at
`(100, 100)` against the flock of itself and an agent at `(88, 88)` returns
`(-0.03535533905932738, -0.03535533905932738)`. Its magnitude as `Mag`
computes it is `0.05000000000000001`, above `0.05`, and the exact sum of the
squares of its two coordinates is above the square of `1/20`. -/
theorem cohesion_exceeds_max_force_float64 :
    Float64.Cohesion agentA64 [agentA64, agentQ64] =
      some ⟨⟨-5095241338020619, -57⟩, ⟨-5095241338020619, -57⟩⟩ ∧
    Float64.Mag ⟨⟨-5095241338020619, -57⟩, ⟨-5095241338020619, -57⟩⟩ =
      ⟨7205759403792795, -57⟩ ∧
    (0.05 : F64) = ⟨7205759403792794, -57⟩ ∧
    (0.05 : F64) < Float64.Mag ⟨⟨-5095241338020619, -57⟩, ⟨-5095241338020619, -57⟩⟩ ∧
    (1 / 20 : ℚ) ^ 2 < (F64.toRat ⟨-5095241338020619, -57⟩) ^ 2 +
      (F64.toRat ⟨-5095241338020619, -57⟩) ^ 2 := by
  refine ⟨by decide!, by decide!, by decide!, by decide!, ?_⟩
  norm_num [F64.toRat]

/-- C17 as amended: with float64 read as real numbers, for every boid and
every flock, with any number of neighbours at any positions and velocities,
`Align` returns a vector of magnitude at most 0.05 and `Cohesion` returns a
vector of magnitude at most 0.05. -/
theorem align_cohesion_bounded (b : Boid ℝ) (boids : List (Boid ℝ)) :
    (∃ s, b.Align boids = some s ∧ s.Mag ≤ 0.05) ∧
    (∃ s, b.Cohesion boids = some s ∧ s.Mag ≤ 0.05) :=
  ⟨b.Align_bound boids, b.Cohesion_bound boids⟩

/-! ### C18: `Edges` in full -/

/-- C18: for every boid state, after `Edges` both coordinates lie in the
closed ranges `[0, winWidth]` and `[0, winHeight]`; a coordinate already inside
its closed range is unchanged, a coordinate above the bound becomes 0 and a
coordinate below 0 becomes the bound itself; velocity and acceleration are
unchanged; and applying `Edges` twice equals applying it once. -/
theorem edges_wrap (b : Boid ℝ) :
    (0 ≤ b.Edges.position.x ∧ b.Edges.position.x ≤ (winWidth : ℝ) ∧
      0 ≤ b.Edges.position.y ∧ b.Edges.position.y ≤ (winHeight : ℝ)) ∧
    (0 ≤ b.position.x → b.position.x ≤ (winWidth : ℝ) → b.Edges.position.x = b.position.x) ∧
    ((winWidth : ℝ) < b.position.x → b.Edges.position.x = 0) ∧
    (b.position.x < 0 → b.Edges.position.x = (winWidth : ℝ)) ∧
    (0 ≤ b.position.y → b.position.y ≤ (winHeight : ℝ) → b.Edges.position.y = b.position.y) ∧
    ((winHeight : ℝ) < b.position.y → b.Edges.position.y = 0) ∧
    (b.position.y < 0 → b.Edges.position.y = (winHeight : ℝ)) ∧
    b.Edges.velocity = b.velocity ∧ b.Edges.accel = b.accel ∧
    b.Edges.Edges = b.Edges := by
  have hw : (0 : ℝ) ≤ (winWidth : ℝ) := Nat.cast_nonneg _
  have hh : (0 : ℝ) ≤ (winHeight : ℝ) := Nat.cast_nonneg _
  have hbox : 0 ≤ b.Edges.position.x ∧ b.Edges.position.x ≤ (winWidth : ℝ) ∧
      0 ≤ b.Edges.position.y ∧ b.Edges.position.y ≤ (winHeight : ℝ) := by
    refine ⟨?_, ?_, ?_, ?_⟩ <;> simp only [Boid.Edges] <;> split_ifs <;> linarith
  refine ⟨hbox, ?_, ?_, ?_, ?_, ?_, ?_, rfl, rfl, ?_⟩
  · intro h0 h1
    simp only [Boid.Edges, gt_iff_lt, not_lt.mpr h1, not_lt.mpr h0, if_false]
  · intro h
    simp only [Boid.Edges, gt_iff_lt, h, if_true]
  · intro h
    have h1 : ¬ (winWidth : ℝ) < b.position.x := not_lt.mpr (le_trans h.le hw)
    simp only [Boid.Edges, gt_iff_lt, h1, h, if_false, if_true]
  · intro h0 h1
    simp only [Boid.Edges, gt_iff_lt, not_lt.mpr h1, not_lt.mpr h0, if_false]
  · intro h
    simp only [Boid.Edges, gt_iff_lt, h, if_true]
  · intro h
    have h1 : ¬ (winHeight : ℝ) < b.position.y := not_lt.mpr (le_trans h.le hh)
    simp only [Boid.Edges, gt_iff_lt, h1, h, if_false, if_true]
  · exact b.Edges.Edges_of_inside hbox.1 hbox.2.1 hbox.2.2.1 hbox.2.2.2


/-! ### Coordinates and magnitude -/

/-- Each coordinate of a vector is at most its magnitude in absolute value. -/
theorem Vector.abs_le_Mag (v : Vector ℝ) : |v.x| ≤ v.Mag ∧ |v.y| ≤ v.Mag := by
  constructor
  · exact Real.abs_le_sqrt (by nlinarith [mul_self_nonneg v.y])
  · exact Real.abs_le_sqrt (by nlinarith [mul_self_nonneg v.x])

/-- After `Edges` the position lies in the closed window. -/
theorem Boid.Edges_position_box (b : Boid ℝ) :
    0 ≤ b.Edges.position.x ∧ b.Edges.position.x ≤ (winWidth : ℝ) ∧
    0 ≤ b.Edges.position.y ∧ b.Edges.position.y ≤ (winHeight : ℝ) := by
  have hw : (0 : ℝ) ≤ (winWidth : ℝ) := Nat.cast_nonneg _
  have hh : (0 : ℝ) ≤ (winHeight : ℝ) := Nat.cast_nonneg _
  refine ⟨?_, ?_, ?_, ?_⟩ <;> simp only [Boid.Edges] <;> split_ifs <;> linarith

/-! ### C20: the rules do not depend on the order of the flock -/

/-- The neighbours of a permuted flock are a permutation of the neighbours. -/
theorem neighboursByValue_perm (b : Boid ℝ) (r : ℝ) (l1 l2 : List (Boid ℝ))
    (h : l1.Perm l2) : (neighboursByValue b r l1).Perm (neighboursByValue b r l2) :=
  h.filter _

/-- C20: for every boid, every flock and every permutation of that flock,
`Align`, `Cohesion` and `Separation`, over real arithmetic, each return the
same vector on the permuted flock as on the original flock. -/
theorem rules_permutation_invariant (b : Boid ℝ) (l1 l2 : List (Boid ℝ)) (h : l1.Perm l2) :
    b.Align l1 = b.Align l2 ∧ b.Cohesion l1 = b.Cohesion l2 ∧
      b.Separation l1 = b.Separation l2 := by
  refine ⟨?_, ?_, ?_⟩
  · have hp := neighboursByValue_perm b 50 l1 l2 h
    have hscan : b.alignScan l1 = b.alignScan l2 := by
      rw [b.alignScan_eq l1, b.alignScan_eq l2, (hp.map _).sum_eq, (hp.map _).sum_eq,
        hp.length_eq]
    unfold Boid.Align
    rw [hscan]
  · have hp := neighboursByValue_perm b 30 l1 l2 h
    have hscan : b.cohesionScan l1 = b.cohesionScan l2 := by
      rw [b.cohesionScan_eq l1, b.cohesionScan_eq l2, (hp.map _).sum_eq, (hp.map _).sum_eq,
        hp.length_eq]
    unfold Boid.Cohesion
    rw [hscan]
  · by_cases hbad : ∃ other ∈ l1, other ≠ b ∧ b.position.Distance other.position = 0
    · have hbad2 : ∃ other ∈ l2, other ≠ b ∧ b.position.Distance other.position = 0 := by
        obtain ⟨other, hmem, hc⟩ := hbad
        exact ⟨other, h.mem_iff.mp hmem, hc⟩
      rw [(b.Separation_eq_none l1).mpr hbad, (b.Separation_eq_none l2).mpr hbad2]
    · have hz1 : ∀ other ∈ l1, other ≠ b → b.position.Distance other.position ≠ 0 :=
        fun other hmem hne hd => hbad ⟨other, hmem, hne, hd⟩
      have hz2 : ∀ other ∈ l2, other ≠ b → b.position.Distance other.position ≠ 0 :=
        fun other hmem hne hd => hbad ⟨other, h.mem_iff.mpr hmem, hne, hd⟩
      have hp := neighboursByValue_perm b 20 l1 l2 h
      unfold Boid.Separation
      rw [b.separationScan_eq l1 _ hz1, b.separationScan_eq l2 _ hz2, (hp.map _).sum_eq,
        (hp.map _).sum_eq, hp.length_eq]

/-- C20 at the scenario of spec §8 and its reversal. -/
theorem rules_permutation_invariant_witness :
    ([agentA, agentB] : List (Boid ℝ)).Perm [agentB, agentA] ∧
    agentA.Align [agentA, agentB] = agentA.Align [agentB, agentA] ∧
    agentA.Cohesion [agentA, agentB] = agentA.Cohesion [agentB, agentA] ∧
    agentA.Separation [agentA, agentB] = agentA.Separation [agentB, agentA] :=
  ⟨List.Perm.swap _ _ _, rules_permutation_invariant agentA _ _ (List.Perm.swap _ _ _)⟩


/-! ### The rules on a flock of one agent -/

/-- In a flock holding only the agent itself the three rules return the
zero vector. -/
theorem rules_alone (c : Boid ℝ) :
    c.Align [c] = some ⟨0, 0⟩ ∧ c.Cohesion [c] = some ⟨0, 0⟩ ∧
      c.Separation [c] = some ⟨0, 0⟩ := by
  have h : ∀ r : ℝ, ∀ other ∈ [c], other ≠ c → r ≤ c.position.Distance other.position := by
    intro r other hmem hne
    exact absurd (List.mem_singleton.mp hmem) hne
  refine ⟨?_, ?_, c.Separation_no_neighbour [c] (h 20)⟩
  · simp [Boid.Align, c.alignScan_no_neighbour [c] (h 50)]
  · simp [Boid.Cohesion, c.cohesionScan_no_neighbour [c] (h 30)]

/-- The velocity a tick leaves is a fixed point of `Limit 2`. -/
theorem Vector.Limit_Limit (v w : Vector ℝ) (h : v.Limit 2 = some w) : w.Limit 2 = some w :=
  w.Limit_of_le 2 (Vector.Mag_le_of_Limit v w 2 (by norm_num) h)

/-! ### The tick loop on stored agents -/

section TickLoop

variable {K : Type} [LinearOrderedField K] [HasSqrt K]

/-- The body of the loop keeps the length of the flock. -/
theorem tickBody_length (boids : List (Agent K)) (i : Nat) :
    (tickBody boids i).length = boids.length := by
  unfold tickBody
  cases boids[i]? with
  | none => rfl
  | some a0 => simp only [List.length_set]

/-- The body of the loop at `i` touches no other entry. -/
theorem tickBody_getElem?_ne (boids : List (Agent K)) (i j : Nat) (h : i ≠ j) :
    (tickBody boids i)[j]? = boids[j]? := by
  unfold tickBody
  cases boids[i]? with
  | none => rfl
  | some a0 => simp only [List.getElem?_set_ne h]

/-- The body of the loop at `i` stores the wrapped, steered and updated agent
at `i`; the rules read the flock that holds the wrapped agent at `i`. -/
theorem tickBody_getElem?_self (boids : List (Agent K)) (i : Nat) (a0 : Agent K)
    (h : boids[i]? = some a0) :
    (tickBody boids i)[i]? = some (a0.Edges.steerAndUpdate (boids.set i a0.Edges)) := by
  have hi : i < boids.length := (List.getElem?_eq_some_iff.mp h).1
  unfold tickBody
  simp only [h]
  rw [List.getElem?_set_self (by rw [List.length_set]; exact hi)]

/-- The loop keeps the length of the flock. -/
theorem tickLoop_length (is : List Nat) (boids : List (Agent K)) :
    (tickLoop is boids).length = boids.length := by
  induction is generalizing boids with
  | nil => rfl
  | cons i rest ih => rw [tickLoop, ih, tickBody_length]

/-- The loop over the indices `is` touches no entry outside `is`. -/
theorem tickLoop_getElem?_of_not_mem (is : List Nat) (boids : List (Agent K)) (j : Nat)
    (h : j ∉ is) : (tickLoop is boids)[j]? = boids[j]? := by
  induction is generalizing boids with
  | nil => rfl
  | cons i rest ih =>
    simp only [List.mem_cons, not_or] at h
    rw [tickLoop, ih _ h.2, tickBody_getElem?_ne boids i j (fun e => h.1 e.symm)]

/-- After the loop over the indices `is`, every entry either has a property
that the body of the loop always establishes, or sits untouched outside `is`. -/
theorem tickLoop_entries (P : Agent K → Prop)
    (hP : ∀ (a : Agent K) (live : List (Agent K)), P (a.Edges.steerAndUpdate live))
    (is : List Nat) (boids : List (Agent K)) (j : Nat) (a : Agent K)
    (h : (tickLoop is boids)[j]? = some a) : P a ∨ (j ∉ is ∧ boids[j]? = some a) := by
  induction is generalizing boids with
  | nil => exact Or.inr ⟨List.not_mem_nil j, h⟩
  | cons i rest ih =>
    rw [tickLoop] at h
    rcases ih _ h with hp | ⟨hnot, hget⟩
    · exact Or.inl hp
    · by_cases hij : i = j
      · subst hij
        cases h0 : boids[i]? with
        | none =>
          have hlen : boids.length ≤ i := List.getElem?_eq_none_iff.mp h0
          have : (tickBody boids i)[i]? = none :=
            List.getElem?_eq_none_iff.mpr (by rw [tickBody_length]; exact hlen)
          rw [this] at hget
          cases hget
        | some a0 =>
          rw [tickBody_getElem?_self boids i a0 h0] at hget
          cases hget
          exact Or.inl (hP _ _)
      · rw [tickBody_getElem?_ne boids i j hij] at hget
        refine Or.inr ⟨?_, hget⟩
        simp only [List.mem_cons, not_or]
        exact ⟨fun e => hij e.symm, hnot⟩

/-- A tick keeps the length of the flock. -/
theorem tick_length (boids : List (Agent K)) : (tick boids).length = boids.length :=
  tickLoop_length _ boids

/-- After a tick every agent of the flock has whatever property the body of
the loop always establishes. -/
theorem tick_entries (P : Agent K → Prop)
    (hP : ∀ (a : Agent K) (live : List (Agent K)), P (a.Edges.steerAndUpdate live))
    (boids : List (Agent K)) : ∀ a ∈ tick boids, P a := by
  intro a ha
  obtain ⟨j, hj, hget⟩ := List.getElem_of_mem ha
  have hsome : (tick boids)[j]? = some a := by
    rw [List.getElem?_eq_getElem hj, hget]
  rcases tickLoop_entries P hP _ boids j a hsome with hp | ⟨hnot, -⟩
  · exact hp
  · rw [tick_length] at hj
    exact absurd (List.mem_range.mpr hj) hnot

end TickLoop


/-! ### What the body of the loop stores -/

/-- When `Separation` of the wrapped agent divides by a zero distance, the
body of the loop stores the agent with NaN velocity and position. -/
theorem Agent.steerAndUpdate_of_separation_none (b1 : Boid ℝ) (live : List (Agent ℝ))
    (h : b1.Separation (realEntries live) = none) :
    (Agent.real b1).steerAndUpdate live = .nan ⟨0, 0⟩ := by
  unfold Agent.steerAndUpdate
  cases b1.Align (realEntries live) <;> cases b1.Cohesion (realEntries live) <;> simp [h]

/-- When the three rules return real vectors, the body of the loop stores the
agent that `Update` returns. -/
theorem Agent.steerAndUpdate_of_values (b1 b3 : Boid ℝ) (live : List (Agent ℝ))
    (al co se : Vector ℝ) (hal : b1.Align (realEntries live) = some al)
    (hco : b1.Cohesion (realEntries live) = some co)
    (hse : b1.Separation (realEntries live) = some se)
    (hup : (((b1.ApplyForce al).ApplyForce co).ApplyForce se).Update = some b3) :
    (Agent.real b1).steerAndUpdate live = .real b3 := by
  unfold Agent.steerAndUpdate
  simp only [hal, hco, hse, hup]

/-- An agent that the body of the loop stores with real coordinates comes
out of `Update` on the wrapped agent with some accumulated acceleration. -/
theorem Agent.steerAndUpdate_eq_real (a : Agent ℝ) (live : List (Agent ℝ)) (b3 : Boid ℝ)
    (h : a.Edges.steerAndUpdate live = .real b3) :
    ∃ (b0 : Boid ℝ) (f : Vector ℝ), a = .real b0 ∧
      Boid.Update ⟨b0.Edges.position, b0.Edges.velocity, f⟩ = some b3 := by
  cases a with
  | nan acc => simp [Agent.Edges, Agent.steerAndUpdate] at h
  | real b0 =>
    simp only [Agent.Edges, Agent.steerAndUpdate] at h
    cases hal : b0.Edges.Align (realEntries live) with
    | none => simp [hal] at h
    | some al =>
      cases hco : b0.Edges.Cohesion (realEntries live) with
      | none => simp [hal, hco] at h
      | some co =>
        cases hse : b0.Edges.Separation (realEntries live) with
        | none => simp [hal, hco, hse] at h
        | some se =>
          simp only [hal, hco, hse] at h
          cases hup : (((b0.Edges.ApplyForce al).ApplyForce co).ApplyForce se).Update with
          | none => simp [hup] at h
          | some b =>
            simp only [hup, Agent.real.injEq] at h
            subst h
            exact ⟨b0, _, rfl, hup⟩

/-- Whatever the body of the loop stores has the acceleration `(0, 0)`. -/
theorem Agent.steerAndUpdate_accel (a : Agent ℝ) (live : List (Agent ℝ)) :
    (a.Edges.steerAndUpdate live).accel = ⟨0, 0⟩ := by
  cases hres : a.Edges.steerAndUpdate live with
  | nan acc =>
    cases a with
    | nan acc0 =>
      simp only [Agent.Edges, Agent.steerAndUpdate, Agent.nan.injEq] at hres
      rw [← hres]
      rfl
    | real b0 =>
      simp only [Agent.Edges, Agent.steerAndUpdate] at hres
      have hacc : acc = ⟨0, 0⟩ := by
        split at hres
        · split at hres
          · cases hres
          · exact (Agent.nan.inj hres).symm
        · exact (Agent.nan.inj hres).symm
      rw [hacc]
      rfl
  | real b3 =>
    obtain ⟨b0, f, -, hup⟩ := a.steerAndUpdate_eq_real live b3 hres
    obtain ⟨v1, -, -, heq⟩ := Boid.Update_eq ⟨b0.Edges.position, b0.Edges.velocity, f⟩
    rw [heq] at hup
    cases hup
    rfl

/-- After a tick, every agent stored with real coordinates has a velocity of
magnitude at most 2 and a position within 2 units of the window. -/
theorem tick_real_entries (boids : List (Agent ℝ)) (b3 : Boid ℝ)
    (h : Agent.real b3 ∈ tick boids) :
    b3.velocity.Mag ≤ 2 ∧
    -2 ≤ b3.position.x ∧ b3.position.x ≤ (winWidth : ℝ) + 2 ∧
    -2 ≤ b3.position.y ∧ b3.position.y ≤ (winHeight : ℝ) + 2 := by
  refine tick_entries (fun a => ∀ b, a = Agent.real b → b.velocity.Mag ≤ 2 ∧
      -2 ≤ b.position.x ∧ b.position.x ≤ (winWidth : ℝ) + 2 ∧
      -2 ≤ b.position.y ∧ b.position.y ≤ (winHeight : ℝ) + 2) ?_ boids _ h b3 rfl
  intro a live b hb
  obtain ⟨b0, f, -, hup⟩ := a.steerAndUpdate_eq_real live b hb
  obtain ⟨v1, -, hle, heq⟩ := Boid.Update_eq ⟨b0.Edges.position, b0.Edges.velocity, f⟩
  rw [heq] at hup
  cases hup
  obtain ⟨hx0, hx1, hy0, hy1⟩ := b0.Edges_position_box
  obtain ⟨hvx, hvy⟩ := v1.abs_le_Mag
  have hx := abs_le.mp (le_trans hvx hle)
  have hy := abs_le.mp (le_trans hvy hle)
  simp only [Vector.Add]
  exact ⟨hle, by linarith [hx.1], by linarith [hx.2], by linarith [hy.1], by linarith [hy.2]⟩

/-- The first agent of a flock is stored with NaN velocity and position when
its `Separation` divides by a zero distance, and the rest of the tick leaves
it so. -/
theorem tick_head_nan (b : Boid ℝ) (rest : List (Agent ℝ))
    (h : b.Edges.Separation (realEntries (Agent.real b.Edges :: rest)) = none) :
    (tick (Agent.real b :: rest))[0]? = some (.nan ⟨0, 0⟩) := by
  unfold tick
  rw [List.length_cons, List.range_succ_eq_map, tickLoop,
    tickLoop_getElem?_of_not_mem _ _ 0 (by simp),
    tickBody_getElem?_self _ 0 (Agent.real b) (by simp)]
  simp only [Agent.Edges, List.set_cons_zero]
  rw [Agent.steerAndUpdate_of_separation_none _ _ h]

/-- `Separation` of `agentA` against a flock that also holds `agentOnA`
divides by a zero distance. -/
theorem separation_none_of_agentOnA (boids : List (Boid ℝ)) (h : agentOnA ∈ boids) :
    agentA.Separation boids = none := by
  rw [Boid.Separation_eq_none]
  refine ⟨agentOnA, h, by simp [agentOnA, agentA], ?_⟩
  simp [agentOnA, agentA, Vector.Distance]

/-- `Edges` leaves `agentA` alone. -/
theorem agentA_Edges : agentA.Edges = agentA :=
  agentA.Edges_of_inside (by norm_num [agentA]) (by norm_num [agentA, winWidth])
    (by norm_num [agentA]) (by norm_num [agentA, winHeight])


/-! ### C4: the speed cap after a tick -/

/-- C4, the code at the flock `[agentA, agentOnA, agentFar]`: `Separation` of
the first agent divides by the zero distance to `agentOnA`, the tick stores
the agent with NaN velocity and position and goes on, so after the tick the
flock holds an agent without a velocity of magnitude at most 2. -/
theorem speed_cap_fails_on_coincident_agents :
    (tick [Agent.real agentA, Agent.real agentOnA, Agent.real agentFar])[0]? =
      some (.nan ⟨0, 0⟩) ∧
    ∃ a ∈ tick [Agent.real agentA, Agent.real agentOnA, Agent.real agentFar],
      ¬ ∃ v, a.velocity? = some v ∧ v.Mag ≤ 2 := by
  have h0 : (tick [Agent.real agentA, Agent.real agentOnA, Agent.real agentFar])[0]? =
      some (.nan ⟨0, 0⟩) := by
    apply tick_head_nan
    rw [agentA_Edges]
    exact separation_none_of_agentOnA [agentA, agentOnA, agentFar] (by simp)
  refine ⟨h0, .nan ⟨0, 0⟩, List.getElem?_mem h0, ?_⟩
  rintro ⟨v, hv, -⟩
  cases hv

/-! ### C12: `Update` is forward Euler with a cleared accumulator -/

/-- C12: for every boid with position `p`, velocity `v` and acceleration `a`,
`Update` returns the velocity `v1 = Limit(v + a, 2)`, the position `p + v1`
(the limited new velocity, not the old one) and the acceleration `(0, 0)`;
consequently every agent's acceleration is zero at the end of every tick, the
agents stored with NaN velocity and position included. -/
theorem update_forward_euler :
    (∀ b : Boid ℝ, ∃ v1, (b.velocity.Add b.accel).Limit 2 = some v1 ∧
      b.Update = some ⟨b.position.Add v1, v1, ⟨0, 0⟩⟩) ∧
    (∀ boids : List (Agent ℝ), ∀ a ∈ tick boids, a.accel = ⟨0, 0⟩) := by
  constructor
  · intro b
    obtain ⟨v1, hv1, -, hup⟩ := b.Update_eq
    exact ⟨v1, hv1, hup⟩
  · intro boids
    exact tick_entries (fun a => a.accel = ⟨0, 0⟩) Agent.steerAndUpdate_accel boids

/-- C12 at concrete inputs: `Update` of agent A carrying the summed force
`(-0.05, 0)` gives velocity `(0.95, 0)` and position `(100.95, 100)`; and after
the tick of `[agentA, agentOnA, agentFar]`, whose first agent is stored with
NaN velocity and position, all accelerations are zero. -/
theorem update_forward_euler_witness :
    Boid.Update (⟨⟨100, 100⟩, ⟨1, 0⟩, ⟨-0.05, 0⟩⟩ : Boid ℝ) =
      some ⟨⟨100.95, 100⟩, ⟨0.95, 0⟩, ⟨0, 0⟩⟩ ∧
    ∀ a ∈ tick [Agent.real agentA, Agent.real agentOnA, Agent.real agentFar],
      a.accel = ⟨0, 0⟩ := by
  refine ⟨?_, update_forward_euler.2 _⟩
  obtain ⟨v1, hv1, hup⟩ := update_forward_euler.1 ⟨⟨100, 100⟩, ⟨1, 0⟩, ⟨-0.05, 0⟩⟩
  have hv : (Vector.mk 1 0 : Vector ℝ).Add ⟨-0.05, 0⟩ = ⟨0.95, 0⟩ := by
    simp only [Vector.Add, Vector.mk.injEq]; norm_num
  rw [hv, Vector.Limit_x_axis_of_le _ _ (by rw [abs_le]; constructor <;> norm_num)] at hv1
  cases hv1
  rw [hup]
  simp only [Vector.Add, Option.some.injEq, Boid.mk.injEq, Vector.mk.injEq]
  norm_num

/-! ### C19: positions after a tick -/

/-- C19, the code at the flock `[agentA, agentOnA]`: `Separation` of the first
agent divides by the zero distance to `agentOnA`, `Update` adds a NaN velocity
to its position, and after the tick the flock holds an agent without a
position within 2 units of the window. -/
theorem tick_position_nan_on_coincident_agents :
    (tick [Agent.real agentA, Agent.real agentOnA])[0]? = some (.nan ⟨0, 0⟩) ∧
    ∃ a ∈ tick [Agent.real agentA, Agent.real agentOnA],
      ¬ ∃ q, a.position? = some q ∧ -2 ≤ q.x ∧ q.x ≤ (winWidth : ℝ) + 2 ∧
        -2 ≤ q.y ∧ q.y ≤ (winHeight : ℝ) + 2 := by
  have h0 : (tick [Agent.real agentA, Agent.real agentOnA])[0]? = some (.nan ⟨0, 0⟩) := by
    apply tick_head_nan
    rw [agentA_Edges]
    exact separation_none_of_agentOnA [agentA, agentOnA] (by simp)
  refine ⟨h0, .nan ⟨0, 0⟩, List.getElem?_mem h0, ?_⟩
  rintro ⟨q, hq, -⟩
  cases hq


/-! ### The tick of the two-agent scenario -/

/-- The body of the tick loop on an agent with real coordinates, from the
values of its five calls. -/
theorem tickBody_of_values (boids : List (Agent ℝ)) (i : Nat) (b0 b3 : Boid ℝ)
    (al co se : Vector ℝ) (h0 : boids[i]? = some (Agent.real b0))
    (hal : b0.Edges.Align (realEntries (boids.set i (Agent.real b0.Edges))) = some al)
    (hco : b0.Edges.Cohesion (realEntries (boids.set i (Agent.real b0.Edges))) = some co)
    (hse : b0.Edges.Separation (realEntries (boids.set i (Agent.real b0.Edges))) = some se)
    (hup : (((b0.Edges.ApplyForce al).ApplyForce co).ApplyForce se).Update = some b3) :
    tickBody boids i = boids.set i (Agent.real b3) := by
  unfold tickBody
  simp only [h0, Agent.Edges]
  rw [Agent.steerAndUpdate_of_values _ b3 _ al co se hal hco hse hup, List.set_set]

/-- The loop body for agent A of the scenario: the three forces are
`(-0.05, 0)`, `(0.05, 0)` and `(-0.05, 0)`. -/
theorem scenario_body_zero :
    tickBody [Agent.real agentA, Agent.real agentB] 0 =
      [Agent.real agentA1, Agent.real agentB] := by
  have hE : agentA.Edges = agentA :=
    agentA.Edges_of_inside (by norm_num [agentA]) (by norm_num [agentA, winWidth])
      (by norm_num [agentA]) (by norm_num [agentA, winHeight])
  have hne : agentB ≠ agentA := by simp [agentA, agentB]
  have hN : ∀ r : ℝ, 10 < r → neighboursByValue agentA r [agentA, agentB] = [agentB] := by
    intro r hr
    simp [neighboursByValue, List.filter, hne, scenario_distance, hr]
  have hz : ∀ other ∈ [agentA, agentB], other ≠ agentA →
      agentA.position.Distance other.position ≠ 0 := by
    intro other hmem hne
    simp only [List.mem_cons, List.mem_singleton, List.not_mem_nil, or_false] at hmem
    rcases hmem with rfl | rfl
    · exact absurd rfl hne
    · rw [scenario_distance]; norm_num
  obtain ⟨hal, hco, hse⟩ := rules_one_neighbour agentA agentB [agentA, agentB]
    (hN 50 (by norm_num)) (hN 30 (by norm_num)) (hN 20 (by norm_num)) hz
  have hal1 : agentA.Align [agentA, agentB] = some ⟨-0.05, 0⟩ := by
    rw [hal]
    have h1 : agentB.velocity.Limit 2 = some ⟨-1, 0⟩ :=
      Vector.Limit_x_axis_of_le _ _ (by norm_num)
    have h2 : (Vector.mk (-1) 0 : Vector ℝ).Sub agentA.velocity = ⟨-2, 0⟩ := by
      simp only [Vector.Sub, agentA, Vector.mk.injEq]; norm_num
    rw [h1, Option.some_bind, h2]
    exact Vector.Limit_force_neg_x _ (by norm_num)
  have hco1 : agentA.Cohesion [agentA, agentB] = some ⟨0.05, 0⟩ := by
    rw [hco]
    have h2 : agentB.position.Sub agentA.position = ⟨10, 0⟩ := by
      simp only [Vector.Sub, agentA, agentB, Vector.mk.injEq]; norm_num
    rw [h2]
    exact Vector.Limit_force_pos_x _ (by norm_num)
  have hse1 : agentA.Separation [agentA, agentB] = some ⟨-0.05, 0⟩ := by
    rw [hse, scenario_distance]
    have h2 : (Vector.mk ((agentA.position.x - agentB.position.x) / 10)
        ((agentA.position.y - agentB.position.y) / 10) : Vector ℝ) = ⟨-1, 0⟩ := by
      simp only [agentA, agentB, Vector.mk.injEq]; norm_num
    rw [h2]
    exact Vector.Limit_force_neg_x _ (by norm_num)
  have hset : ([Agent.real agentA, Agent.real agentB] : List (Agent ℝ)).set 0
      (Agent.real agentA.Edges) = [Agent.real agentA, Agent.real agentB] := by
    rw [hE]; rfl
  have hup : (((agentA.Edges.ApplyForce ⟨-0.05, 0⟩).ApplyForce ⟨0.05, 0⟩).ApplyForce
      ⟨-0.05, 0⟩).Update = some agentA1 := by
    rw [hE]
    have hv : (Vector.mk (1 + (0 + -0.05 + 0.05 + -0.05)) (0 + (0 + 0 + 0 + 0)) : Vector ℝ) =
        ⟨0.95, 0⟩ := by
      simp only [Vector.mk.injEq]; norm_num
    simp only [Boid.ApplyForce, Boid.Update, Vector.Add, agentA, hv]
    rw [Vector.Limit_x_axis_of_le _ _ (by rw [abs_le]; constructor <;> norm_num)]
    simp only [Option.some_bind, agentA1, Option.some.injEq, Boid.mk.injEq, Vector.mk.injEq]
    norm_num
  exact tickBody_of_values [Agent.real agentA, Agent.real agentB] 0 agentA agentA1 _ _ _ rfl
    (by rw [hset, hE]; exact hal1) (by rw [hset, hE]; exact hco1)
    (by rw [hset, hE]; exact hse1) hup

/-- After A has moved, B is 9.05 away from it. -/
theorem scenario_distance_one : agentB.position.Distance agentA1.position = 9.05 := by
  simp only [agentA1, agentB, Vector.Distance_same_y]
  rw [abs_of_neg (by norm_num)]
  norm_num

/-- The loop body for agent B of the scenario, which reads the post-tick state
of A: the three forces are `(0.05, 0)`, `(-0.05, 0)` and `(0.05, 0)`. -/
theorem scenario_body_one :
    tickBody [Agent.real agentA1, Agent.real agentB] 1 =
      [Agent.real agentA1, Agent.real agentB1] := by
  have hE : agentB.Edges = agentB :=
    agentB.Edges_of_inside (by norm_num [agentB]) (by norm_num [agentB, winWidth])
      (by norm_num [agentB]) (by norm_num [agentB, winHeight])
  have hne : agentA1 ≠ agentB := by simp [agentA1, agentB]; norm_num
  have hN : ∀ r : ℝ, 9.05 < r → neighboursByValue agentB r [agentA1, agentB] = [agentA1] := by
    intro r hr
    simp [neighboursByValue, List.filter, hne, scenario_distance_one, hr]
  have hz : ∀ other ∈ [agentA1, agentB], other ≠ agentB →
      agentB.position.Distance other.position ≠ 0 := by
    intro other hmem hne
    simp only [List.mem_cons, List.mem_singleton, List.not_mem_nil, or_false] at hmem
    rcases hmem with rfl | rfl
    · rw [scenario_distance_one]; norm_num
    · exact absurd rfl hne
  obtain ⟨hal, hco, hse⟩ := rules_one_neighbour agentB agentA1 [agentA1, agentB]
    (hN 50 (by norm_num)) (hN 30 (by norm_num)) (hN 20 (by norm_num)) hz
  have hal1 : agentB.Align [agentA1, agentB] = some ⟨0.05, 0⟩ := by
    rw [hal]
    have h1 : agentA1.velocity.Limit 2 = some ⟨0.95, 0⟩ :=
      Vector.Limit_x_axis_of_le _ _ (by rw [abs_le]; constructor <;> norm_num)
    have h2 : (Vector.mk 0.95 0 : Vector ℝ).Sub agentB.velocity = ⟨1.95, 0⟩ := by
      simp only [Vector.Sub, agentB, Vector.mk.injEq]; norm_num
    rw [h1, Option.some_bind, h2]
    exact Vector.Limit_force_pos_x _ (by norm_num)
  have hco1 : agentB.Cohesion [agentA1, agentB] = some ⟨-0.05, 0⟩ := by
    rw [hco]
    have h2 : agentA1.position.Sub agentB.position = ⟨-9.05, 0⟩ := by
      simp only [Vector.Sub, agentA1, agentB, Vector.mk.injEq]; norm_num
    rw [h2]
    exact Vector.Limit_force_neg_x _ (by norm_num)
  have hse1 : agentB.Separation [agentA1, agentB] = some ⟨0.05, 0⟩ := by
    rw [hse, scenario_distance_one]
    have h2 : (Vector.mk ((agentB.position.x - agentA1.position.x) / 9.05)
        ((agentB.position.y - agentA1.position.y) / 9.05) : Vector ℝ) = ⟨1, 0⟩ := by
      simp only [agentA1, agentB, Vector.mk.injEq]; norm_num
    rw [h2]
    exact Vector.Limit_force_pos_x _ (by norm_num)
  have hset : ([Agent.real agentA1, Agent.real agentB] : List (Agent ℝ)).set 1
      (Agent.real agentB.Edges) = [Agent.real agentA1, Agent.real agentB] := by
    rw [hE]; rfl
  have hup : (((agentB.Edges.ApplyForce ⟨0.05, 0⟩).ApplyForce ⟨-0.05, 0⟩).ApplyForce
      ⟨0.05, 0⟩).Update = some agentB1 := by
    rw [hE]
    have hv : (Vector.mk (-1 + (0 + 0.05 + -0.05 + 0.05)) (0 + (0 + 0 + 0 + 0)) : Vector ℝ) =
        ⟨-0.95, 0⟩ := by
      simp only [Vector.mk.injEq]; norm_num
    simp only [Boid.ApplyForce, Boid.Update, Vector.Add, agentB, hv]
    rw [Vector.Limit_x_axis_of_le _ _ (by rw [abs_le]; constructor <;> norm_num)]
    simp only [Option.some_bind, agentB1, Option.some.injEq, Boid.mk.injEq, Vector.mk.injEq]
    norm_num
  exact tickBody_of_values [Agent.real agentA1, Agent.real agentB] 1 agentB agentB1 _ _ _ rfl
    (by rw [hset, hE]; exact hal1) (by rw [hset, hE]; exact hco1)
    (by rw [hset, hE]; exact hse1) hup

/-- One tick of the two-agent scenario of spec §8. -/
theorem tick_scenario :
    tick [Agent.real agentA, Agent.real agentB] = [Agent.real agentA1, Agent.real agentB1] := by
  show tickLoop [0, 1] [Agent.real agentA, Agent.real agentB] = _
  simp only [tickLoop, scenario_body_zero, scenario_body_one]

/-! ### C16: the tick is sequential and in place -/

/-- The new state of an agent as the specification words it is what the body
of the loop stores. -/
theorem agentTick_eq (a0 : Agent ℝ) (live : List (Agent ℝ)) :
    agentTick a0 live = a0.Edges.steerAndUpdate live := by
  unfold agentTick Agent.steerAndUpdate
  cases a0.Edges with
  | nan acc => rfl
  | real b1 => rfl

/-- Lists that agree below `k` have the same first `k` entries. -/
theorem take_eq_of_getElem?_eq (l1 l2 : List (Agent ℝ)) (k : Nat)
    (h : ∀ j, j < k → l1[j]? = l2[j]?) : l1.take k = l2.take k := by
  apply List.ext_getElem?
  intro n
  rw [List.getElem?_take, List.getElem?_take]
  split
  · next hn => exact h n hn
  · rfl

/-- Lists that agree from `k` on have the same entries after the first `k`. -/
theorem drop_eq_of_getElem?_eq (l1 l2 : List (Agent ℝ)) (k : Nat)
    (h : ∀ j, k ≤ j → l1[j]? = l2[j]?) : l1.drop k = l2.drop k := by
  apply List.ext_getElem?
  intro n
  rw [List.getElem?_drop, List.getElem?_drop]
  exact h _ (Nat.le_add_right k n)

/-- The run of the loop over the indices `k, ..., k + m - 1`: every entry
inside the range is `agentTick` of the old entry against the flock made of
the final entries before it, the wrapped agent, and the old entries after
it. -/
theorem tickLoop_range (m : Nat) :
    ∀ (k : Nat) (cur : List (Agent ℝ)) (i : Nat) (a0 : Agent ℝ),
      k ≤ i → i < k + m → cur[i]? = some a0 →
      (tickLoop (List.range' k m) cur)[i]? =
        some (agentTick a0 (liveFlock cur (tickLoop (List.range' k m) cur) i a0.Edges)) := by
  induction m with
  | zero =>
    intro k cur i a0 hk hi _
    exact absurd hi (by omega)
  | succ m ih =>
    intro k cur i a0 hki hi h0
    rw [List.range'_succ, tickLoop]
    have hmidne : ∀ j, j ≠ k → (tickBody cur k)[j]? = cur[j]? :=
      fun j hj => tickBody_getElem?_ne cur k j (Ne.symm hj)
    have hlow : ∀ j, j < k + 1 →
        (tickLoop (List.range' (k + 1) m) (tickBody cur k))[j]? = (tickBody cur k)[j]? := by
      intro j hj
      apply tickLoop_getElem?_of_not_mem
      intro hmem
      have := (List.mem_range'_1.mp hmem).1
      omega
    by_cases hik : i = k
    · subst hik
      rw [hlow i (by omega), tickBody_getElem?_self cur i a0 h0, agentTick_eq]
      have hi' : i < cur.length := (List.getElem?_eq_some_iff.mp h0).1
      have htake : (tickLoop (List.range' (i + 1) m) (tickBody cur i)).take i = cur.take i :=
        take_eq_of_getElem?_eq _ _ i fun j hj => by
          rw [hlow j (by omega), hmidne j (by omega)]
      rw [liveFlock, htake, ← List.set_eq_take_cons_drop _ hi']
    · have hc0mid : (tickBody cur k)[i]? = some a0 := by rw [hmidne i hik, h0]
      rw [ih (k + 1) (tickBody cur k) i a0 (by omega) (by omega) hc0mid]
      have hdrop : (tickBody cur k).drop (i + 1) = cur.drop (i + 1) :=
        drop_eq_of_getElem?_eq _ _ (i + 1) fun j hj => hmidne j (by omega)
      rw [liveFlock, liveFlock, hdrop]

/-- C16: one tick of a flock of `N` agents returns a flock of the same length
`N` in which, for every index `i`, the new state of agent `i` is `Update`
applied to `Edges` of the old agent `i` after adding `Align`, `Cohesion` and
`Separation` to its acceleration, the three forces being computed against
the flock whose entries before `i` hold their post-tick state, whose entry
`i` is the wrapped agent and whose entries after `i` hold their pre-tick
state. -/
theorem tick_sequential_in_place (boids : List (Agent ℝ)) :
    (tick boids).length = boids.length ∧
    ∀ i a0, boids[i]? = some a0 →
      (tick boids)[i]? =
        some (agentTick a0 (liveFlock boids (tick boids) i a0.Edges)) := by
  refine ⟨tick_length boids, fun i a0 h0 => ?_⟩
  have hi : i < boids.length := (List.getElem?_eq_some_iff.mp h0).1
  unfold tick
  rw [List.range_eq_range']
  exact tickLoop_range boids.length 0 boids i a0 (Nat.zero_le i) (by omega) h0

/-- C16 at the scenario of spec §8: in the tick of `[agentA, agentB]`, agent A
is computed against the wrapped A and the pre-tick B, and agent B against the
post-tick A and the wrapped B. -/
theorem tick_sequential_in_place_witness :
    tick [Agent.real agentA, Agent.real agentB] = [Agent.real agentA1, Agent.real agentB1] ∧
    agentTick (Agent.real agentA) [(Agent.real agentA).Edges, Agent.real agentB] =
      Agent.real agentA1 ∧
    agentTick (Agent.real agentB) [Agent.real agentA1, (Agent.real agentB).Edges] =
      Agent.real agentB1 := by
  obtain ⟨-, hin⟩ := tick_sequential_in_place [Agent.real agentA, Agent.real agentB]
  have ha := hin 0 (Agent.real agentA) rfl
  have hb := hin 1 (Agent.real agentB) rfl
  rw [tick_scenario] at ha hb
  refine ⟨tick_scenario, ?_, ?_⟩
  · exact (Option.some.inj ha).symm
  · exact (Option.some.inj hb).symm


/-! ### A flock of one agent over the reals -/

/-- One tick of a flock of one agent without acceleration: the agent is
wrapped and moves on by its limited velocity. -/
theorem tick_alone (c : Boid ℝ) (w : Vector ℝ) (hacc : c.accel = ⟨0, 0⟩)
    (hw : c.velocity.Limit 2 = some w) :
    tick [Agent.real c] = [Agent.real ⟨c.Edges.position.Add w, w, ⟨0, 0⟩⟩] := by
  obtain ⟨hal, hco, hse⟩ := rules_alone c.Edges
  have hbody : tickBody [Agent.real c] 0 =
      [Agent.real c].set 0 (Agent.real ⟨c.Edges.position.Add w, w, ⟨0, 0⟩⟩) := by
    refine tickBody_of_values [Agent.real c] 0 c _ ⟨0, 0⟩ ⟨0, 0⟩ ⟨0, 0⟩ rfl hal hco hse ?_
    have hv : c.Edges.velocity.Add
        ((((c.Edges.accel.Add ⟨0, 0⟩).Add ⟨0, 0⟩).Add ⟨0, 0⟩)) = c.velocity := by
      show c.velocity.Add (((c.accel.Add ⟨0, 0⟩).Add ⟨0, 0⟩).Add ⟨0, 0⟩) = c.velocity
      rw [hacc]
      simp [Vector.Add]
    simp only [Boid.Update, Boid.ApplyForce, hv, hw, Option.some_bind]
  show tickLoop [0] [Agent.real c] = _
  simp only [tickLoop, hbody, List.set_cons_zero]

/-- The state of a one-agent flock after `T` ticks: one agent, without
acceleration, whose velocity limits to `w` and, from the first tick on, is
`w`. -/
theorem ticks_alone (b : Boid ℝ) (w : Vector ℝ) (hacc : b.accel = ⟨0, 0⟩)
    (hw : b.velocity.Limit 2 = some w) (T : Nat) :
    ∃ c, ticks T [Agent.real b] = [Agent.real c] ∧ c.accel = ⟨0, 0⟩ ∧
      c.velocity.Limit 2 = some w ∧ (0 < T → c.velocity = w) := by
  induction T with
  | zero => exact ⟨b, rfl, hacc, hw, fun h => absurd h (lt_irrefl 0)⟩
  | succ T ih =>
    obtain ⟨c, hc, hcacc, hcw, -⟩ := ih
    refine ⟨⟨c.Edges.position.Add w, w, ⟨0, 0⟩⟩, ?_, rfl, Vector.Limit_Limit _ _ hw, fun _ => rfl⟩
    simp only [ticks, hc]
    exact tick_alone c w hcacc hcw


/-! ### C13: the single-agent scenario -/

/-- C13 as stated fails on the code, in float64. The agent at `(100, 100)`
with velocity `(0.1, 0)` alone in the flock is at `x = 100.1`,
`100.19999999999999`, `100.29999999999998` after one, two and three ticks
(no wrap fires), while `Limit(v0, 2)` is `v0` and the initial position plus
three times it is `100.3`, as float64 computes it, and not the stored value
in exact arithmetic either. The agent with velocity `(19, 29)` has the
velocity `Limit(v0, 2)` after the first tick and another one after the
second. -/
theorem single_agent_drifts_float64 :
    Float64.ticks 1 [Agent.real slowAgent64] =
      [Agent.real ⟨⟨⟨7043911292184166, -46⟩, 100⟩, ⟨0.1, 0⟩, ⟨0, 0⟩⟩] ∧
    Float64.ticks 2 [Agent.real slowAgent64] =
      [Agent.real ⟨⟨⟨7050948166601932, -46⟩, 100⟩, ⟨0.1, 0⟩, ⟨0, 0⟩⟩] ∧
    Float64.ticks 3 [Agent.real slowAgent64] =
      [Agent.real ⟨⟨⟨7057985041019698, -46⟩, 100⟩, ⟨0.1, 0⟩, ⟨0, 0⟩⟩] ∧
    Float64.Limit slowAgent64.velocity 2 = some ⟨0.1, 0⟩ ∧
    (100 : F64) + 3 * 0.1 = ⟨7057985041019699, -46⟩ ∧
    (100 : F64) = ⟨7036874417766400, -46⟩ ∧ (0.1 : F64) = ⟨7205759403792794, -56⟩ ∧
    F64.toRat ⟨7057985041019698, -46⟩ ≠
      F64.toRat ⟨7036874417766400, -46⟩ + 3 * F64.toRat ⟨7205759403792794, -56⟩ ∧
    (Float64.ticks 1 [Agent.real fastAgent64]).map Agent.velocity? =
      [Float64.Limit fastAgent64.velocity 2] ∧
    (Float64.ticks 2 [Agent.real fastAgent64]).map Agent.velocity? ≠
      [Float64.Limit fastAgent64.velocity 2] := by
  refine ⟨by decide!, by decide!, by decide!, by decide!, by decide!, by decide!, by decide!,
    ?_, by decide!, by decide!⟩
  norm_num [F64.toRat]

/-- C13 as amended: with float64 read as real numbers, in a flock of exactly
one agent `b` with zero acceleration, whose initial velocity limits to
`w = Limit(v0, 2)`: before every tick the flock is one agent, on which
(wrapped) `Align`, `Cohesion` and `Separation` all return the zero vector; the
tick sets its velocity to `w` and its position to the wrapped position plus
`w`; so after `T` ticks during which no wrap fires the position is the initial
position plus `T` times `w`. -/
theorem single_agent_scenario (b : Boid ℝ) (w : Vector ℝ) (hacc : b.accel = ⟨0, 0⟩)
    (hw : b.velocity.Limit 2 = some w) :
    (∀ T : Nat, ∃ c, ticks T [Agent.real b] = [Agent.real c] ∧
      c.Edges.Align [c.Edges] = some ⟨0, 0⟩ ∧ c.Edges.Cohesion [c.Edges] = some ⟨0, 0⟩ ∧
      c.Edges.Separation [c.Edges] = some ⟨0, 0⟩ ∧
      ticks (T + 1) [Agent.real b] = [Agent.real ⟨c.Edges.position.Add w, w, ⟨0, 0⟩⟩]) ∧
    (∀ T : Nat,
      (∀ k : Nat, k < T →
        0 ≤ (b.position.Add (w.Mul k)).x ∧ (b.position.Add (w.Mul k)).x ≤ (winWidth : ℝ) ∧
        0 ≤ (b.position.Add (w.Mul k)).y ∧ (b.position.Add (w.Mul k)).y ≤ (winHeight : ℝ)) →
      ∃ v, ticks T [Agent.real b] = [Agent.real ⟨b.position.Add (w.Mul T), v, ⟨0, 0⟩⟩] ∧
        (0 < T → v = w)) := by
  constructor
  · intro T
    obtain ⟨c, hc, hcacc, hcw, -⟩ := ticks_alone b w hacc hw T
    obtain ⟨hal, hco, hse⟩ := rules_alone c.Edges
    refine ⟨c, hc, hal, hco, hse, ?_⟩
    simp only [ticks, hc]
    exact tick_alone c w hcacc hcw
  · intro T
    induction T with
    | zero =>
      intro _
      refine ⟨b.velocity, ?_, fun h => absurd h (lt_irrefl 0)⟩
      have hp : b.position.Add (w.Mul ((0 : Nat) : ℝ)) = b.position := by
        simp [Vector.Add, Vector.Mul]
      rw [hp, ← hacc]
      rfl
    | succ T ih =>
      intro hbox
      obtain ⟨v, hv, hvw⟩ := ih fun k hk => hbox k (Nat.lt_succ_of_lt hk)
      obtain ⟨c, hc, hcacc, hcw, -⟩ := ticks_alone b w hacc hw T
      rw [hc] at hv
      have hceq : c = ⟨b.position.Add (w.Mul T), v, ⟨0, 0⟩⟩ := by
        simpa using hv
      obtain ⟨hx0, hx1, hy0, hy1⟩ := hbox T (Nat.lt_succ_self T)
      have hE : c.Edges = c := by
        apply c.Edges_of_inside <;> rw [hceq] <;> assumption
      refine ⟨w, ?_, fun _ => rfl⟩
      simp only [ticks, hc]
      rw [tick_alone c w hcacc hcw, hE, hceq]
      simp only [Vector.Add, Vector.Mul, Nat.cast_add, Nat.cast_one, List.cons.injEq,
        Agent.real.injEq, Boid.mk.injEq, Vector.mk.injEq, and_true]
      constructor <;> ring

/-- C13 as amended, at `agentA` alone, with velocity `(1, 0)`: during three
ticks no wrap fires, and after them the agent is at `(103, 100)` with
velocity `(1, 0)`. -/
theorem single_agent_scenario_witness :
    agentA.accel = ⟨0, 0⟩ ∧ agentA.velocity.Limit 2 = some ⟨1, 0⟩ ∧
    ticks 3 [Agent.real agentA] = [Agent.real ⟨⟨103, 100⟩, ⟨1, 0⟩, ⟨0, 0⟩⟩] := by
  have hw : agentA.velocity.Limit 2 = some ⟨1, 0⟩ :=
    Vector.Limit_x_axis_of_le _ _ (by rw [abs_le]; constructor <;> norm_num)
  refine ⟨rfl, hw, ?_⟩
  obtain ⟨v, hv, hvw⟩ := (single_agent_scenario agentA ⟨1, 0⟩ rfl hw).2 3 (by
    intro k hk
    have hk0 : (0 : ℝ) ≤ (k : ℝ) := Nat.cast_nonneg k
    have hk3 : (k : ℝ) ≤ 3 := by exact_mod_cast hk.le
    simp only [agentA, Vector.Add, Vector.Mul, winWidth, winHeight]
    refine ⟨by linarith, ?_, by norm_num, by norm_num⟩
    push_cast
    linarith)
  rw [hv, hvw (by norm_num)]
  simp only [agentA, Vector.Add, Vector.Mul, List.cons.injEq, Agent.real.injEq, Boid.mk.injEq,
    Vector.mk.injEq, and_true]
  norm_num


end Boids
